import Mathlib

/-!
Verification development for the subtitle extraction pipeline of
`subtitle_extractor.py` (functions `extract_subtitles`,
`_resolve_subtitle_priority`, `_get_subtitle_from_info`,
`_download_subtitle_content`, `_clean_subtitle_text`).

The Python code is shallowly embedded: strings are `String`/`List Char`,
Python dicts (which preserve insertion order) are association lists,
`urllib` retrieval is an injected function `String → Option String`
(`none` models a raised exception), and each `re.sub` call is modeled by a
dedicated left-to-right scan function mirroring the exact regular
expression (leftmost match, greedy/lazy exactly as the pattern dictates,
resuming after the end of each replaced match, `^`/`$` handled with a
line-start flag for the MULTILINE patterns).
-/

/-- The double quote (code 34), used pervasively below; the single
quote, backslash and the two curly braces follow as named constants. -/
def quoteD : Char := Char.ofNat 34

def quoteS : Char := Char.ofNat 39

def lbraceC : Char := Char.ofNat 123

def rbraceC : Char := Char.ofNat 125

def bslashC : Char := Char.ofNat 92

/-- Python `str.isspace` / regex `\s` restricted to the ASCII range:
space, tab, newline, carriage return, vertical tab (11), form feed (12).
Real Python `\s` is Unicode-aware (it additionally matches U+001C–U+001F,
U+0085, U+00A0, U+1680, U+2000–U+200A, U+2028, U+2029, U+202F, U+205F,
U+3000); on printable ASCII (U+0020–U+007E) the two classes coincide, and
the universally quantified fixed-point theorem restricts its domain to
printable ASCII for exactly this reason, while the remaining results
evaluate the pipeline on concrete ASCII inputs or do not depend on the
whitespace class at all. -/
def isPySpace (c : Char) : Bool :=
  c = ' ' || c = '\t' || c = '\n' || c = '\r' || c = Char.ofNat 11 || c = Char.ofNat 12

/-- Regex `\d` restricted to ASCII decimal digits.  Real Python `\d`
matches every Unicode decimal digit (category Nd, e.g. the Arabic-Indic
digits); the two classes coincide on printable ASCII, to which the
fixed-point theorem restricts its domain. -/
def isDigitC (c : Char) : Bool := '0' ≤ c && c ≤ '9'

/-- Regex `[a-zA-Z]`. -/
def isAsciiAlpha (c : Char) : Bool := ('a' ≤ c && c ≤ 'z') || ('A' ≤ c && c ≤ 'Z')

/-- The character class `[\[\]{},"']` of `_clean_subtitle_text` line 335:
the "JSON-like artifacts" deleted from the markup branch. -/
def sevenChar (c : Char) : Bool :=
  c = '[' || c = ']' || c = lbraceC || c = rbraceC || c = ',' || c = quoteD || c = quoteS

/-- The character class `[\s\[\]{},"':]` used by the line filter
(lines 279 and 343). -/
def dropClassChar (c : Char) : Bool := isPySpace c || sevenChar c || c = ':'

/-- `str.startswith` on character lists. -/
def startsWithL : List Char → List Char → Bool
  | [], _ => true
  | _ :: _, [] => false
  | a :: as, b :: bs => a = b && startsWithL as bs

/-- Python substring containment (`needle in haystack`). -/
def containsSub (n : List Char) : List Char → Bool
  | [] => n.isEmpty
  | c :: cs => startsWithL n (c :: cs) || containsSub n cs

/-- Python `str.strip()`: whitespace removed from both ends. -/
def stripPy (l : List Char) : List Char :=
  ((l.dropWhile isPySpace).reverse.dropWhile isPySpace).reverse

/-- Python `str.split('\n')`. -/
def splitNl : List Char → List (List Char)
  | [] => [[]]
  | c :: cs =>
    if c = '\n' then [] :: splitNl cs
    else
      match splitNl cs with
      | [] => [[c]]
      | x :: xs => (c :: x) :: xs

/-- Python `' '.join(lines)`. -/
def joinSpace : List (List Char) → List Char
  | [] => []
  | [l] => l
  | l :: ls => l ++ ' ' :: joinSpace ls

/-- First-occurrence lookup in an association list; models indexing a
Python dict (whose keys are unique). -/
def lookupA {α : Type} : List (String × α) → String → Option α
  | [], _ => none
  | (k, v) :: rest, key => if k = key then some v else lookupA rest key

/-!  `re.sub` engine.  A matcher inspects the current suffix of the input
and returns `some (n, rep)` when the regex matches exactly `n` characters
there, to be replaced by `rep`; `none` when it does not match at this
position.  `scanAux` walks the string left to right, replacing
non-overlapping matches and resuming after each match, exactly like
`re.sub`.  All patterns in the source match at least one character. -/

def scanAux (m : List Char → Option (Nat × List Char)) : List Char → Nat → List Char
  | [], _ => []
  | _ :: cs, skip + 1 => scanAux m cs skip
  | c :: cs, 0 =>
    match m (c :: cs) with
    | some (n + 1, rep) => rep ++ scanAux m cs n
    | _ => c :: scanAux m cs 0

def scanSub (m : List Char → Option (Nat × List Char)) (cs : List Char) : List Char :=
  scanAux m cs 0

/-- Variant for MULTILINE patterns anchored with `^`: the matcher also
receives a flag telling whether the current position is a line start
(start of string or right after a newline). -/
def scanAuxLS (m : Bool → List Char → Option (Nat × List Char)) :
    List Char → Nat → Bool → List Char
  | [], _, _ => []
  | c :: cs, skip + 1, _ => scanAuxLS m cs skip (c = '\n')
  | c :: cs, 0, flag =>
    match m flag (c :: cs) with
    | some (n + 1, rep) => rep ++ scanAuxLS m cs n (c = '\n')
    | _ => c :: scanAuxLS m cs 0 (c = '\n')

def scanSubLS (m : Bool → List Char → Option (Nat × List Char)) (cs : List Char) : List Char :=
  scanAuxLS m cs 0 true

/-- Index of the first position `i` with `l[i] = l[i+1] = '\n'`. -/
def findNlNl : List Char → Option Nat
  | [] => none
  | a :: rest =>
    if a = '\n' then
      match rest with
      | b :: _ => if b = '\n' then some 0 else (findNlNl rest).map (· + 1)
      | [] => none
    else (findNlNl rest).map (· + 1)

/-- Matcher for `re.sub(r'^WEBVTT.*?\n\n', '', _, flags=MULTILINE|DOTALL)`
(line 311): at a line start, `WEBVTT` followed lazily by anything up to and
including the first blank-line separator. -/
def webvttM (ls : Bool) (l : List Char) : Option (Nat × List Char) :=
  if ls && startsWithL ("WEBVTT".data) l then
    match findNlNl (l.drop 6) with
    | some i => some (6 + i + 2, [])
    | none => none
  else none

/-- One timestamp `\d{2}:\d{2}:\d{2}[,\.]\d{3}` (comma allowed when
`commaOk`, mirroring the SRT pattern of line 315; the VTT pattern of
line 319 allows only the dot).  Returns the rest of the input. -/
def tsAfter (commaOk : Bool) (l : List Char) : Option (List Char) :=
  match l with
  | a :: b :: x :: c :: d :: y :: e :: f :: s :: g :: h :: i :: rest =>
    if isDigitC a && isDigitC b && x = ':' && isDigitC c && isDigitC d && y = ':' &&
        isDigitC e && isDigitC f && (s = '.' || (commaOk && s = ',')) &&
        isDigitC g && isDigitC h && isDigitC i then some rest else none
  | _ => none

def arrowRest (l : List Char) : Option (List Char) :=
  match l with
  | '-' :: '-' :: '>' :: rest => some rest
  | _ => none

/-- Matcher for the cue timing patterns (lines 315 and 319):
timestamp, `\s*`, `-->`, `\s*`, timestamp. -/
def tsPairM (commaOk : Bool) (l : List Char) : Option (Nat × List Char) :=
  match tsAfter commaOk l with
  | none => none
  | some r1 =>
    match arrowRest (r1.dropWhile isPySpace) with
    | none => none
    | some r3 =>
      match tsAfter commaOk (r3.dropWhile isPySpace) with
      | none => none
      | some r5 => some (l.length - r5.length, [])

/-- Index of the last `'\n'` in the list, if any. -/
def lastNlIdx : List Char → Option Nat
  | [] => none
  | c :: cs =>
    match lastNlIdx cs with
    | some j => some (j + 1)
    | none => if c = '\n' then some 0 else none

/-- Matcher for `re.sub(r'^\d+\s*$', '', _, flags=MULTILINE)` (line 323):
at a line start, a maximal digit run, then the longest whitespace run such
that the position after it is the end of the string or a `'\n'`
(the `$` of MULTILINE; backtracking of the greedy `\s*` stops at the last
newline inside the whitespace run). -/
def seqNumM (ls : Bool) (l : List Char) : Option (Nat × List Char) :=
  if ls then
    let ds := l.takeWhile isDigitC
    if ds.isEmpty then none
    else
      let rest := l.drop ds.length
      let run := rest.takeWhile isPySpace
      if (rest.drop run.length).isEmpty then some (ds.length + run.length, [])
      else
        match lastNlIdx run with
        | some j => some (ds.length + j, [])
        | none => none
  else none

/-- Matcher for `<[^>]+>` (line 326) and `{[^}]+}` (line 327): an opening
delimiter, at least one character other than the closing delimiter, then
the closing delimiter. -/
def delimM (o c : Char) (l : List Char) : Option (Nat × List Char) :=
  match l with
  | [] => none
  | a :: rest =>
    if a = o then
      let inner := rest.takeWhile (fun x => !(x = c))
      if inner.isEmpty then none
      else
        match rest.drop inner.length with
        | b :: _ => if b = c then some (1 + inner.length + 1, []) else none
        | [] => none
    else none

def tagM : List Char → Option (Nat × List Char) := delimM '<' '>'

def braceM : List Char → Option (Nat × List Char) := delimM lbraceC rbraceC

/-- Matcher for `position:\d+%` (line 330) and `size:\d+%` (line 332). -/
def keyNumPctM (key : List Char) (l : List Char) : Option (Nat × List Char) :=
  if startsWithL key l then
    let d := (l.drop key.length).takeWhile isDigitC
    if d.isEmpty then none
    else
      match (l.drop key.length).drop d.length with
      | p :: _ => if p = '%' then some (key.length + d.length + 1, []) else none
      | [] => none
  else none

def posM : List Char → Option (Nat × List Char) := keyNumPctM ("position:".data)

def sizeM : List Char → Option (Nat × List Char) := keyNumPctM ("size:".data)

/-- Matcher for `align:[a-zA-Z]+` (line 331). -/
def alignM (l : List Char) : Option (Nat × List Char) :=
  if startsWithL ("align:".data) l then
    let w := (l.drop 6).takeWhile isAsciiAlpha
    if w.isEmpty then none else some (6 + w.length, [])
  else none

/-- Matcher for `wsWinStyles|wpWinPositions|events` (line 336). -/
def tokenM (l : List Char) : Option (Nat × List Char) :=
  if startsWithL ("wsWinStyles".data) l then some (11, [])
  else if startsWithL ("wpWinPositions".data) l then some (14, [])
  else if startsWithL ("events".data) l then some (6, [])
  else none

/-- Matcher for a maximal nonempty run of characters satisfying `p`
replaced by a single space: models `re.sub(r'[\r\n]+', ' ', _)` and
`re.sub(r'\s+', ' ', _)`. -/
def runSubM (p : Char → Bool) (l : List Char) : Option (Nat × List Char) :=
  let r := l.takeWhile p
  if r.isEmpty then none else some (r.length, [' '])

def isCrLf (c : Char) : Bool := c = '\r' || c = '\n'

def isEndPunct (c : Char) : Bool := c = '.' || c = '!' || c = '?'

def isCommaC (c : Char) : Bool := c = ','

/-- Matcher for `\s+([.!?])` → `\1` (line 355) and `\s+([,])` → `\1`
(line 358): a nonempty whitespace run directly followed by the
punctuation character, replaced by the punctuation character alone. -/
def spBeforeM (punct : Char → Bool) (l : List Char) : Option (Nat × List Char) :=
  let r := l.takeWhile isPySpace
  if r.isEmpty then none
  else
    match l.drop r.length with
    | p :: _ => if punct p then some (r.length + 1, [p]) else none
    | [] => none

/-- Matcher for `([.!?])([^\s])` → `\1 \2` (line 357) and
`([,])([^\s])` → `\1 \2` (line 360): punctuation directly followed by a
non-whitespace character gets a space inserted; the second character is
part of the match, so scanning resumes after it. -/
def afterM (punct : Char → Bool) (l : List Char) : Option (Nat × List Char) :=
  match l with
  | p :: x :: _ => if punct p && !(isPySpace x) then some (2, [p, ' ', x]) else none
  | _ => none

/-- Line filter of lines 276-280 / 340-344: `line.strip()`, then keep the
line if it is nonempty, not all whitespace, and does not consist solely of
characters from `[\s\[\]{},"':]`. -/
def keepLine (l : List Char) : Bool :=
  !(l.isEmpty) && !(l.all isPySpace) && !(l.all dropClassChar)

def nlRunM : List Char → Option (Nat × List Char) := runSubM isCrLf

def wsRunM : List Char → Option (Nat × List Char) := runSubM isPySpace

/-- Lines 275-289 / 338-351: split on newlines, strip and filter the
lines, join with single spaces, collapse `[\r\n]+` and then `\s+` to one
space. -/
def commonStage1 (cs : List Char) : List Char :=
  scanSub wsRunM (scanSub nlRunM (joinSpace (((splitNl cs).map stripPy).filter keepLine)))

/-- Lines 291-295 / 353-357: spacing normalization for `.`, `!`, `?`. -/
def commonStage2 (cs : List Char) : List Char :=
  scanSub (afterM isEndPunct) (scanSub (spBeforeM isEndPunct) (commonStage1 cs))

/-- Lines 297-299 / 358-360: spacing normalization for the comma. -/
def commonStage3 (cs : List Char) : List Char :=
  scanSub (afterM isCommaC) (scanSub (spBeforeM isCommaC) (commonStage2 cs))

/-- Lines 301-305 / 362-365: final whitespace collapse and strip.  This
whole `commonStage1..commonTail` chain is the textually duplicated cleanup
block shared by the JSON branch (lines 274-305) and the markup branch
(lines 338-365) of `_clean_subtitle_text`. -/
def commonTail (cs : List Char) : List Char :=
  stripPy (scanSub wsRunM (commonStage3 cs))

/-- Lines 310-336 of `_clean_subtitle_text`: the markup-specific
substitutions, in source order: WEBVTT header, SRT timestamps, VTT
timestamps, sequence-number lines, `<...>` tags, `{...}` blocks,
positioning cues, the `[\[\]{},"']` artifact deletion, and the literal
tokens `wsWinStyles|wpWinPositions|events`. -/
def markupScrubbed (cs : List Char) : List Char :=
  scanSub tokenM
    ((scanSub sizeM
      (scanSub alignM
        (scanSub posM
          (scanSub braceM
            (scanSub tagM
              (scanSubLS seqNumM
                (scanSub (tsPairM false)
                  (scanSub (tsPairM true)
                    (scanSubLS webvttM cs))))))))).filter (fun c => !(sevenChar c)))

/-- The full markup (VTT/SRT) branch of `_clean_subtitle_text`. -/
def markupCleanL (cs : List Char) : List Char :=
  commonTail (markupScrubbed cs)

def markupClean (s : String) : String :=
  String.mk (markupCleanL s.data)

/-- The JSON branch of `_clean_subtitle_text` (lines 271-272 then the
shared cleanup): tag and brace stripping applied to the joined segment
text, followed by the common cleanup pipeline. -/
def jsonTailClean (raw : String) : String :=
  String.mk (commonTail (scanSub braceM (scanSub tagM raw.data)))

/-- Python values produced by `json.loads`.  Numbers keep their lexeme:
no claim depends on numeric values, only on a value being a number. -/
inductive PyVal where
  | null
  | bool (b : Bool)
  | num (lit : String)
  | str (s : String)
  | arr (elems : List PyVal)
  | obj (fields : List (String × PyVal))

/-- JSON whitespace accepted by `json.loads` between tokens. -/
def isJsonWs (c : Char) : Bool := c = ' ' || c = '\t' || c = '\n' || c = '\r'

def hexVal (c : Char) : Option Nat :=
  if '0' ≤ c && c ≤ '9' then some (c.toNat - 48)
  else if 'a' ≤ c && c ≤ 'f' then some (c.toNat - 87)
  else if 'A' ≤ c && c ≤ 'F' then some (c.toNat - 70)
  else none

/-- JSON string body after the opening quote: returns the decoded
characters and the rest after the closing quote.  Mirrors `json.loads`
strict mode: raw control characters are rejected, only the standard
escapes are accepted (a `\uXXXX` escape is decoded to the code point;
surrogate-pair recombination is not modeled, no claim depends on it). -/
def parseJStr : List Char → Option (List Char × List Char)
  | [] => none
  | c :: rest =>
    if c = quoteD then some ([], rest)
    else if c = bslashC then
      match rest with
      | [] => none
      | e :: rest2 =>
        if e = quoteD then (parseJStr rest2).map (fun p => (quoteD :: p.1, p.2))
        else if e = bslashC then (parseJStr rest2).map (fun p => (bslashC :: p.1, p.2))
        else if e = '/' then (parseJStr rest2).map (fun p => ('/' :: p.1, p.2))
        else if e = 'b' then (parseJStr rest2).map (fun p => (Char.ofNat 8 :: p.1, p.2))
        else if e = 'f' then (parseJStr rest2).map (fun p => (Char.ofNat 12 :: p.1, p.2))
        else if e = 'n' then (parseJStr rest2).map (fun p => ('\n' :: p.1, p.2))
        else if e = 'r' then (parseJStr rest2).map (fun p => ('\r' :: p.1, p.2))
        else if e = 't' then (parseJStr rest2).map (fun p => ('\t' :: p.1, p.2))
        else if e = 'u' then
          match rest2 with
          | h1 :: h2 :: h3 :: h4 :: rest3 =>
            match hexVal h1, hexVal h2, hexVal h3, hexVal h4 with
            | some a, some b, some c', some d =>
              (parseJStr rest3).map (fun p =>
                (Char.ofNat (((a * 16 + b) * 16 + c') * 16 + d) :: p.1, p.2))
            | _, _, _, _ => none
          | _ => none
        else none
    else if c.toNat < 32 then none
    else (parseJStr rest).map (fun p => (c :: p.1, p.2))

/-- JSON integer part: `0` or a nonzero digit followed by digits. -/
def parseIntPart : List Char → Option (List Char × List Char)
  | [] => none
  | c :: rest =>
    if c = '0' then some (['0'], rest)
    else if isDigitC c then
      let ds := rest.takeWhile isDigitC
      some (c :: ds, rest.drop ds.length)
    else none

/-- Optional JSON fraction part. -/
def parseFracPart (l : List Char) : Option (List Char × List Char) :=
  match l with
  | '.' :: rest =>
    let ds := rest.takeWhile isDigitC
    if ds.isEmpty then none else some ('.' :: ds, rest.drop ds.length)
  | _ => some ([], l)

/-- Optional JSON exponent part. -/
def parseExpPart (l : List Char) : Option (List Char × List Char) :=
  match l with
  | c :: rest =>
    if c = 'e' || c = 'E' then
      match rest with
      | s :: rest2 =>
        if s = '+' || s = '-' then
          let ds := rest2.takeWhile isDigitC
          if ds.isEmpty then none else some (c :: s :: ds, rest2.drop ds.length)
        else
          let ds := rest.takeWhile isDigitC
          if ds.isEmpty then none else some (c :: ds, rest.drop ds.length)
      | [] => none
    else some ([], l)
  | [] => some ([], l)

/-- A JSON number (including the `-Infinity` constant Python accepts). -/
def parseNumLex (l : List Char) : Option (String × List Char) :=
  match l with
  | '-' :: rest =>
    if startsWithL ("Infinity".data) rest then some ("-Infinity", rest.drop 8)
    else
      match parseIntPart rest with
      | none => none
      | some (ip, r1) =>
        match parseFracPart r1 with
        | none => none
        | some (fp, r2) =>
          match parseExpPart r2 with
          | none => none
          | some (ep, r3) => some (String.mk ('-' :: ip ++ fp ++ ep), r3)
  | _ =>
    match parseIntPart l with
    | none => none
    | some (ip, r1) =>
      match parseFracPart r1 with
      | none => none
      | some (fp, r2) =>
        match parseExpPart r2 with
        | none => none
        | some (ep, r3) => some (String.mk (ip ++ fp ++ ep), r3)

/-- Insertion into a Python dict under construction: a duplicate key keeps
its first position but takes the last value, as in `json.loads`. -/
def objInsert (kvs : List (String × PyVal)) (k : String) (v : PyVal) :
    List (String × PyVal) :=
  match kvs with
  | [] => [(k, v)]
  | (k', v') :: rest => if k' = k then (k', v) :: rest else (k', v') :: objInsert rest k v

mutual

/-- Recursive-descent model of `json.loads`, fuel-indexed (the fuel is
always sufficient for the input length, see `pyJsonLoads`). -/
def parseVal : Nat → List Char → Option (PyVal × List Char)
  | 0, _ => none
  | fuel + 1, l =>
    match l.dropWhile isJsonWs with
    | [] => none
    | c :: rest =>
      if c = lbraceC then
        match rest.dropWhile isJsonWs with
        | c2 :: r2 =>
          if c2 = rbraceC then some (.obj [], r2)
          else (parseObjItems fuel rest []).map (fun p => (.obj p.1, p.2))
        | [] => none
      else if c = '[' then
        match rest.dropWhile isJsonWs with
        | ']' :: r2 => some (.arr [], r2)
        | _ => (parseArrItems fuel rest).map (fun p => (.arr p.1, p.2))
      else if c = quoteD then
        (parseJStr rest).map (fun p => (.str (String.mk p.1), p.2))
      else if c = 't' then
        if startsWithL ("rue".data) rest then some (.bool true, rest.drop 3) else none
      else if c = 'f' then
        if startsWithL ("alse".data) rest then some (.bool false, rest.drop 4) else none
      else if c = 'n' then
        if startsWithL ("ull".data) rest then some (.null, rest.drop 3) else none
      else if c = 'N' then
        if startsWithL ("aN".data) rest then some (.num "NaN", rest.drop 2) else none
      else if c = 'I' then
        if startsWithL ("nfinity".data) rest then some (.num "Infinity", rest.drop 7) else none
      else (parseNumLex (c :: rest)).map (fun p => (.num p.1, p.2))

/-- Array members after `[` (at least one member). -/
def parseArrItems : Nat → List Char → Option (List PyVal × List Char)
  | 0, _ => none
  | fuel + 1, l =>
    match parseVal fuel l with
    | none => none
    | some (v, r1) =>
      match r1.dropWhile isJsonWs with
      | ',' :: r2 => (parseArrItems fuel r2).map (fun p => (v :: p.1, p.2))
      | ']' :: r2 => some ([v], r2)
      | _ => none

/-- Object members after an opening brace (at least one member),
accumulating into a dict. -/
def parseObjItems :
    Nat → List Char → List (String × PyVal) → Option (List (String × PyVal) × List Char)
  | 0, _, _ => none
  | fuel + 1, l, acc =>
    match l.dropWhile isJsonWs with
    | c :: r1 =>
      if c = quoteD then
        match parseJStr r1 with
        | none => none
        | some (kcs, r2) =>
          match r2.dropWhile isJsonWs with
          | ':' :: r4 =>
            match parseVal fuel r4 with
            | none => none
            | some (v, r5) =>
              match r5.dropWhile isJsonWs with
              | ',' :: r7 => parseObjItems fuel r7 (objInsert acc (String.mk kcs) v)
              | c2 :: r7 =>
                if c2 = rbraceC then some (objInsert acc (String.mk kcs) v, r7) else none
              | [] => none
          | _ => none
      else none
    | [] => none

end

/-- `json.loads` on a whole document: one value, then only whitespace. -/
def pyJsonLoads (s : String) : Option PyVal :=
  match parseVal (s.data.length + 2) s.data with
  | some (v, r) => if (r.dropWhile isJsonWs).isEmpty then some v else none
  | none => none

inductive PyErr where
  | typeError
  | keyError
deriving DecidableEq, Repr

/-- Python `x == k` for a string `k` and a JSON value `x`: only a string
with the same content is equal. -/
def isStrVal (k : String) : PyVal → Bool
  | .str s => s = k
  | _ => false

/-- Python `key in value` for the values `json.loads` can return:
substring test on strings, membership on lists, key test on dicts;
`TypeError` on numbers, booleans and `None` (not iterable). -/
def pyInV (k : String) (v : PyVal) : Except PyErr Bool :=
  match v with
  | .str s => .ok (containsSub k.data s.data)
  | .arr xs => .ok (xs.any (isStrVal k))
  | .obj kvs => .ok (kvs.any (fun p => p.1 = k))
  | _ => .error .typeError

/-- Python `value[key]` with a string key: only dicts support it
(`KeyError` when missing); strings and lists raise `TypeError`
(string/list indices must be integers), as do the scalar values. -/
def pyGetItem (v : PyVal) (k : String) : Except PyErr PyVal :=
  match v with
  | .obj kvs =>
    match lookupA kvs k with
    | some x => .ok x
    | none => .error .keyError
  | _ => .error .typeError

/-- Python `for x in value`: characters of a string (as 1-character
strings), elements of a list, keys of a dict; `TypeError` otherwise. -/
def pyIterV (v : PyVal) : Except PyErr (List PyVal) :=
  match v with
  | .str s => .ok (s.data.map (fun c => .str (String.mk [c])))
  | .arr xs => .ok xs
  | .obj kvs => .ok (kvs.map (fun p => .str p.1))
  | _ => .error .typeError

/-- Inner loop of lines 262-264: `for seg in segs: if 'utf8' in seg:
text_parts.append(seg['utf8'])`. -/
def collectSegs : List PyVal → List PyVal → Except PyErr (List PyVal)
  | [], acc => .ok acc
  | seg :: rest, acc =>
    match pyInV "utf8" seg with
    | .error e => .error e
    | .ok false => collectSegs rest acc
    | .ok true =>
      match pyGetItem seg "utf8" with
      | .error e => .error e
      | .ok u => collectSegs rest (acc ++ [u])

/-- Outer loop of lines 260-264: `for event in events: if 'segs' in
event: for seg in event['segs']: ...`. -/
def collectEvents : List PyVal → List PyVal → Except PyErr (List PyVal)
  | [], acc => .ok acc
  | ev :: rest, acc =>
    match pyInV "segs" ev with
    | .error e => .error e
    | .ok false => collectEvents rest acc
    | .ok true =>
      match pyGetItem ev "segs" with
      | .error e => .error e
      | .ok sv =>
        match pyIterV sv with
        | .error e => .error e
        | .ok segs =>
          match collectSegs segs acc with
          | .error e => .error e
          | .ok acc' => collectEvents rest acc'

/-- `' '.join(text_parts)` (line 267): every part must be a string,
otherwise Python raises `TypeError`. -/
def partsToStrs : List PyVal → Except PyErr (List String)
  | [] => .ok []
  | .str s :: rest =>
    match partsToStrs rest with
    | .error e => .error e
    | .ok ss => .ok (s :: ss)
  | _ :: _ => .error .typeError

/-- Lines 258-305: the body of the `if 'events' in data:` block.
`.ok none` means `'events' in data` was false (control falls through to
the markup branch); `.ok (some t)` is the early `return text.strip()`. -/
def jsonEventsBranch (data : PyVal) : Except PyErr (Option String) :=
  match pyInV "events" data with
  | .error e => .error e
  | .ok false => .ok none
  | .ok true =>
    match pyGetItem data "events" with
    | .error e => .error e
    | .ok ev =>
      match pyIterV ev with
      | .error e => .error e
      | .ok events =>
        match collectEvents events [] with
        | .error e => .error e
        | .ok parts =>
          match partsToStrs parts with
          | .error e => .error e
          | .ok strs => .ok (some (jsonTailClean (String.intercalate " " strs)))

/-- Line 253: `subtitle_content.strip().startswith('{') or '"events"' in
subtitle_content`. -/
def takesJsonBranch (s : String) : Bool :=
  (match stripPy s.data with
   | c :: _ => c = lbraceC
   | [] => false) ||
  containsSub ("\"events\"".data) s.data

/-- `_clean_subtitle_text` (lines 239-365).  The result is `Except`
because the function can raise: the `except` clause at line 306 catches
only `json.JSONDecodeError` and `KeyError` (both of which fall through to
the markup branch); a `TypeError` raised inside the JSON block
propagates to the caller. -/
def clean_subtitle_text (s : String) : Except PyErr String :=
  if s = "" then .ok ""
  else if takesJsonBranch s then
    match pyJsonLoads s with
    | some data =>
      match jsonEventsBranch data with
      | .ok (some t) => .ok t
      | .ok none => .ok (markupClean s)
      | .error .keyError => .ok (markupClean s)
      | .error .typeError => .error .typeError
    | none => .ok (markupClean s)
  else .ok (markupClean s)

/-- One entry of a yt-dlp subtitle format list; `_download_subtitle_content`
only reads `format_info.get('url')` (`none` models a missing field). -/
structure FormatInfo where
  url : Option String
deriving DecidableEq, Repr

/-- A yt-dlp subtitle dictionary: language → list of format descriptors,
in insertion order. -/
abbrev SubDict : Type := List (String × List FormatInfo)

/-- `_download_subtitle_content` (lines 213-236): try each format in
order; skip it when the `url` field is missing or empty (falsy) or when
retrieval raises (`fetch u = none`); return the decoded content of the
first successful retrieval — even when that content is empty. -/
def download_subtitle_content (fetch : String → Option String) :
    List FormatInfo → Option String
  | [] => none
  | f :: rest =>
    match f.url with
    | some u =>
      if u = "" then download_subtitle_content fetch rest
      else
        match fetch u with
        | some content => some content
        | none => download_subtitle_content fetch rest
    | none => download_subtitle_content fetch rest

/-- First entry whose key starts with `language + "-"`
(the variant loop of lines 199-201). -/
def findVariant (d : SubDict) (language : String) : Option (String × List FormatInfo) :=
  d.find? (fun p => startsWithL (language ++ "-").data p.1.data)

/-- `_get_subtitle_from_info` (lines 183-210): exact key match, else first
`language-*` variant, else the first entry of a non-empty dict; each
branch immediately returns the download result for the chosen entry. -/
def get_subtitle_from_info (fetch : String → Option String) (d : SubDict)
    (language : String) : Option String :=
  match lookupA d language with
  | some fmts => download_subtitle_content fetch fmts
  | none =>
    match findVariant d language with
    | some p => download_subtitle_content fetch p.2
    | none =>
      match d with
      | [] => none
      | p :: _ => download_subtitle_content fetch p.2

/-- Python truthiness of an `Optional[str]`: `None` and `""` are falsy. -/
def optTruthy : Option String → Bool
  | some s => !(s = "")
  | none => false

/-- `_resolve_subtitle_priority` (lines 101-145): four tiers, each kept
only when its downloaded content is truthy — manual in the requested
language, automatic in the requested language, first manual language,
first automatic language; `none` when all four fall through. -/
def resolve_subtitle_priority (fetch : String → Option String)
    (subtitles automatic_captions : SubDict) (language : String) : Option String :=
  let c1 := get_subtitle_from_info fetch subtitles language
  if optTruthy c1 then c1
  else
    let c2 := get_subtitle_from_info fetch automatic_captions language
    if optTruthy c2 then c2
    else
      let c3 :=
        match subtitles with
        | [] => none
        | p :: _ => get_subtitle_from_info fetch subtitles p.1
      if optTruthy c3 then c3
      else
        let c4 :=
          match automatic_captions with
          | [] => none
          | p :: _ => get_subtitle_from_info fetch automatic_captions p.1
        if optTruthy c4 then c4 else none

/-- Result of the backend metadata lookup (`ydl.extract_info`, line 166):
either the two subtitle dictionaries from the info payload, or a raised
exception (network/DNS failure, `yt_dlp.DownloadError`, ...). -/
inductive UpstreamResult where
  | ok (subtitles automatic_captions : SubDict)
  | err

/-- `_extract_subtitle_content` (lines 148-180): on a backend exception
both `except` clauses return `None` (lines 175-180); otherwise the
priority resolution runs on the two dictionaries. -/
def extract_subtitle_content (fetch : String → Option String)
    (backend : UpstreamResult) (language : String) : Option String :=
  match backend with
  | .ok subs autos => resolve_subtitle_priority fetch subs autos language
  | .err => none

/-- `extract_subtitles` (lines 26-57), URL validation aside: a truthy
subtitle payload is cleaned (any exception escaping the cleaning is
caught at line 55 and collapses to `""`); a falsy payload yields `""`. -/
def extract_subtitles (fetch : String → Option String)
    (backend : UpstreamResult) (language : String) : String :=
  match extract_subtitle_content fetch backend language with
  | some c =>
    if c = "" then ""
    else
      match clean_subtitle_text c with
      | .ok t => t
      | .error _ => ""
  | none => ""

/-- All retrievable locations of a format list (`url` fields present). -/
def fmtUrls (fmts : List FormatInfo) : List String := fmts.filterMap (·.url)

/-- All locations appearing in one subtitle dictionary. -/
def dictUrls (d : SubDict) : List String := (d.map (fun p => fmtUrls p.2)).flatten

/-- All locations appearing in a catalog (both dictionaries). -/
def catUrls (subs autos : SubDict) : List String := dictUrls subs ++ dictUrls autos

/-- A descriptor the fetch loop skips: missing `url`, empty `url`, or a
retrieval that raises. -/
def descFails (fetch : String → Option String) (f : FormatInfo) : Bool :=
  match f.url with
  | none => true
  | some u => u = "" || (fetch u).isNone

/-!  Independent shape predicates on parsed JSON values, characterizing
(sufficiently for the theorems below) when the `events` extraction block
runs to completion without a `TypeError`.  They are written from the
Python iteration/indexing semantics, not from the extractor itself. -/

/-- Is the value a Python string? -/
def isStrV : PyVal → Bool
  | .str _ => true
  | _ => false

def allStrB (l : List PyVal) : Bool := l.all isStrV

/-- One member of a `segs` iteration is safe: membership `'utf8' in seg`
must not raise, a true membership must lead to a safe `seg['utf8']`, and
a collected part must be a string (for `' '.join`). -/
def segOk : PyVal → Bool
  | .num _ => false
  | .bool _ => false
  | .null => false
  | .str s => !(containsSub ("utf8".data) s.data)
  | .arr xs => !(xs.any (isStrVal "utf8"))
  | .obj kvs =>
    match lookupA kvs "utf8" with
    | some (.str _) => true
    | some _ => false
    | none => true

/-- The value of an event's `segs` field is safe to iterate and process. -/
def segsValOk : PyVal → Bool
  | .num _ => false
  | .bool _ => false
  | .null => false
  | .str _ => true
  | .obj kvs => kvs.all (fun p => !(containsSub ("utf8".data) p.1.data))
  | .arr xs => xs.all segOk

/-- One member of the `events` iteration is safe. -/
def eventOk : PyVal → Bool
  | .num _ => false
  | .bool _ => false
  | .null => false
  | .str s => !(containsSub ("segs".data) s.data)
  | .arr xs => !(xs.any (isStrVal "segs"))
  | .obj kvs =>
    match lookupA kvs "segs" with
    | some sv => segsValOk sv
    | none => true

/-- The value of the top-level `events` field is safe. -/
def eventsValOk : PyVal → Bool
  | .num _ => false
  | .bool _ => false
  | .null => false
  | .str _ => true
  | .obj kvs => kvs.all (fun p => !(containsSub ("segs".data) p.1.data))
  | .arr xs => xs.all eventOk

/-- A parsed document on which the `if 'events' in data:` block cannot
raise a `TypeError`. -/
def wellShaped : PyVal → Bool
  | .num _ => false
  | .bool _ => false
  | .null => false
  | .str s => !(containsSub ("events".data) s.data)
  | .arr xs => !(xs.any (isStrVal "events"))
  | .obj kvs =>
    match lookupA kvs "events" with
    | some ev => eventsValOk ev
    | none => true

/-- A payload on which `_clean_subtitle_text` is guaranteed not to raise:
either the JSON branch is not taken, or parsing fails (caught), or the
parsed document is well-shaped. -/
def safeShape (s : String) : Bool :=
  !(takesJsonBranch s) ||
  (match pyJsonLoads s with
   | some v => wellShaped v
   | none => true)

/-- Every `.`, `!`, `?` is directly followed by a space (or ends the
string). -/
def pairsOk : List Char → Bool
  | a :: b :: rest => (!(isEndPunct a) || b = ' ') && pairsOk (b :: rest)
  | _ => true

/-- Printable ASCII (U+0020–U+007E).  On this range the ASCII character
classes `isPySpace` and `isDigitC` agree exactly with Python's
Unicode-aware `\s` and `\d` (the only `\s` character in the range is the
plain space, the only `\d` characters are `0`–`9`), so on strings of
printable ASCII the embedded pipeline is character-for-character faithful
to `_clean_subtitle_text`. -/
def asciiPrintable (c : Char) : Bool := 32 ≤ c.toNat && c.toNat ≤ 126

/-- Strong cleanliness: a single-line string on which every substitution
of the markup branch is a no-op, so `_clean_subtitle_text` returns it
unchanged.  The conditions: every character is printable ASCII (outside
that range Python's Unicode-aware `\s`/`\d` rewrite strings — U+00A0 is
collapsed by the `\s+` rule, a line of Arabic-Indic digits is deleted by
`^\d+\s*$` — so such strings are not fixed points and are excluded); all
whitespace is a plain space; none of the artifact characters `[](){},"'`
nor `:`, `<`, `>` occur; none of the literal tokens `events`,
`wsWinStyles`, `wpWinPositions` occur; the string is not a pure digit
string; no leading, trailing or doubled spaces; no space directly before
`.`, `!`, `?`; every `.`, `!`, `?` followed by a space or the end. -/
def cleanFixed (s : String) : Bool :=
  let cs := s.data
  cs.all asciiPrintable &&
  cs.all (fun c => !(isPySpace c) || c = ' ') &&
  cs.all (fun c => !(dropClassChar c && !(c = ' ')) && !(c = '<') && !(c = '>')) &&
  !(containsSub ("events".data) cs) &&
  !(containsSub ("wsWinStyles".data) cs) &&
  !(containsSub ("wpWinPositions".data) cs) &&
  !(!(cs.isEmpty) && cs.all isDigitC) &&
  !(cs.head? == some ' ') && !(cs.getLast? == some ' ') &&
  !(containsSub [' ', ' '] cs) &&
  !(containsSub [' ', '.'] cs) && !(containsSub [' ', '!'] cs) &&
  !(containsSub [' ', '?'] cs) &&
  pairsOk cs

/-!  Concrete inputs used by counterexamples and witnesses. -/

def fiManual : FormatInfo := ⟨some "m"⟩

def fiAuto : FormatInfo := ⟨some "a"⟩

def exManual : SubDict := [("en", [fiManual])]

def exAuto : SubDict := [("en", [fiAuto])]

/-- A fetch behaviour under which both tracks download fine. -/
def fetchBoth : String → Option String :=
  fun u => if u = "m" then some "MANUAL" else if u = "a" then some "AUTO" else none

/-- A fetch behaviour under which the manual track's retrieval raises. -/
def fetchAutoOnly : String → Option String :=
  fun u => if u = "a" then some "AUTO" else none

/-- A fetch behaviour under which every retrieval raises. -/
def fetchNever : String → Option String := fun _ => none

/-- A fetch behaviour that always succeeds with non-empty content. -/
def fetchTag : String → Option String := fun u => some (String.append "C-" u)

/-- `fetchTag` altered only on a location outside every catalog below. -/
def fetchTagAlt : String → Option String :=
  fun u => if u = "zz" then none else fetchTag u

def fiU1 : FormatInfo := ⟨some "u1"⟩

def fiU2 : FormatInfo := ⟨some "u2"⟩

/-- First location yields an empty (but successful) response, second a
non-empty one. -/
def fetchEmptyFirst : String → Option String :=
  fun u => if u = "u1" then some "" else if u = "u2" then some "X" else none

/-- The VTT header scenario input of the spec. -/
def vttScenario : String :=
  "WEBVTT\n\n00:00:01.000 --> 00:00:02.000\n<b>Hi</b> , world\n"

/-- The JSON round-trip scenario input of the spec. -/
def jsonScenario : String :=
  "\x7b\"events\":[\x7b\"segs\":[\x7b\"utf8\":\"Hello\"\x7d]\x7d, \x7b\"segs\":[\x7b\"utf8\":\"world.\"\x7d]\x7d]\x7d"

/-- A JSON payload that parses but whose `events` value is a number. -/
def badShapeScenario : String := "\x7b\"events\": 5\x7d"

/-!  Helper lemmas about the selector and the fetch loop. -/

theorem lookupA_mem {α : Type} {d : List (String × α)} {k : String} {v : α}
    (h : lookupA d k = some v) : (k, v) ∈ d := by
  induction d with
  | nil => simp [lookupA] at h
  | cons p rest ih =>
    obtain ⟨k', v'⟩ := p
    by_cases hk : k' = k
    · subst hk
      simp [lookupA] at h
      subst h
      exact List.mem_cons_self _ _
    · simp [lookupA, hk] at h
      exact List.mem_cons_of_mem _ (ih h)

theorem mem_dictUrls {d : SubDict} {p : String × List FormatInfo} {u : String}
    (hp : p ∈ d) (hu : u ∈ fmtUrls p.2) : u ∈ dictUrls d := by
  simp only [dictUrls, List.mem_flatten]
  exact ⟨fmtUrls p.2, List.mem_map_of_mem _ hp, hu⟩

theorem download_congr {f g : String → Option String} {fmts : List FormatInfo}
    (h : ∀ u ∈ fmtUrls fmts, f u = g u) :
    download_subtitle_content f fmts = download_subtitle_content g fmts := by
  induction fmts with
  | nil => rfl
  | cons d rest ih =>
    have hrest : ∀ u ∈ fmtUrls rest, f u = g u := by
      intro u hu
      exact h u (by simp [fmtUrls, List.filterMap_cons] at hu ⊢; cases d.url <;> simp_all)
    cases hd : d.url with
    | none => simp [download_subtitle_content, hd, ih hrest]
    | some u =>
      by_cases hu : u = ""
      · simp [download_subtitle_content, hd, hu, ih hrest]
      · have hfu : f u = g u := by
          refine h u ?_
          simp [fmtUrls, List.filterMap_cons, hd]
        simp only [download_subtitle_content, hd, if_neg hu, hfu]
        cases g u with
        | none => exact ih hrest
        | some c => rfl

theorem get_congr {f g : String → Option String} {d : SubDict} (L : String)
    (h : ∀ u ∈ dictUrls d, f u = g u) :
    get_subtitle_from_info f d L = get_subtitle_from_info g d L := by
  have hdl : ∀ p : String × List FormatInfo, p ∈ d →
      download_subtitle_content f p.2 = download_subtitle_content g p.2 := by
    intro p hp
    exact download_congr (fun u hu => h u (mem_dictUrls hp hu))
  unfold get_subtitle_from_info
  cases hl : lookupA d L with
  | some fmts => exact hdl (L, fmts) (lookupA_mem hl)
  | none =>
    cases hv : findVariant d L with
    | some p => exact hdl p (List.mem_of_find?_eq_some hv)
    | none =>
      cases d with
      | nil => rfl
      | cons p rest => exact hdl p (List.mem_cons_self _ _)

theorem resolve_congr {f g : String → Option String} {subs autos : SubDict} {L : String}
    (h : ∀ u ∈ catUrls subs autos, f u = g u) :
    resolve_subtitle_priority f subs autos L = resolve_subtitle_priority g subs autos L := by
  have hs : ∀ u ∈ dictUrls subs, f u = g u := by
    intro u hu
    exact h u (by simp [catUrls, hu])
  have ha : ∀ u ∈ dictUrls autos, f u = g u := by
    intro u hu
    exact h u (by simp [catUrls, hu])
  have h1 : ∀ L', get_subtitle_from_info f subs L' = get_subtitle_from_info g subs L' :=
    fun L' => get_congr L' hs
  have h2 : ∀ L', get_subtitle_from_info f autos L' = get_subtitle_from_info g autos L' :=
    fun L' => get_congr L' ha
  simp only [resolve_subtitle_priority, h1, h2]

theorem optTruthy_ne_none {o : Option String} (h : optTruthy o = true) : o ≠ none := by
  cases o <;> simp_all [optTruthy]

theorem get_truthy {f : String → Option String} {d : SubDict} (L : String) (hne : d ≠ [])
    (h : ∀ p ∈ d, optTruthy (download_subtitle_content f p.2) = true) :
    optTruthy (get_subtitle_from_info f d L) = true := by
  unfold get_subtitle_from_info
  cases hl : lookupA d L with
  | some fmts => exact h (L, fmts) (lookupA_mem hl)
  | none =>
    cases hv : findVariant d L with
    | some p => exact h p (List.mem_of_find?_eq_some hv)
    | none =>
      cases d with
      | nil => exact absurd rfl hne
      | cons p rest => exact h p (List.mem_cons_self _ _)

theorem download_skip_fail {f : String → Option String} {d : FormatInfo}
    {ds : List FormatInfo} (h : descFails f d = true) :
    download_subtitle_content f (d :: ds) = download_subtitle_content f ds := by
  unfold descFails at h
  cases hu : d.url with
  | none => simp [download_subtitle_content, hu]
  | some u =>
    rw [hu] at h
    by_cases he : u = ""
    · simp [download_subtitle_content, hu, he]
    · have hf : f u = none := by
        simpa [he] using h
      simp [download_subtitle_content, hu, he, hf]

theorem download_none_of_all_fail {f : String → Option String} {ds : List FormatInfo}
    (h : ∀ d ∈ ds, descFails f d = true) : download_subtitle_content f ds = none := by
  induction ds with
  | nil => rfl
  | cons d rest ih =>
    rw [download_skip_fail (h d (List.mem_cons_self _ _))]
    exact ih (fun x hx => h x (List.mem_cons_of_mem _ hx))

theorem get_none_of_downloads_none {f : String → Option String} {d : SubDict} (L : String)
    (h : ∀ p ∈ d, download_subtitle_content f p.2 = none) :
    get_subtitle_from_info f d L = none := by
  unfold get_subtitle_from_info
  cases hl : lookupA d L with
  | some fmts => exact h (L, fmts) (lookupA_mem hl)
  | none =>
    cases hv : findVariant d L with
    | some p => exact h p (List.mem_of_find?_eq_some hv)
    | none =>
      cases d with
      | nil => rfl
      | cons p rest => exact h p (List.mem_cons_self _ _)

theorem resolve_none_of_get_none {f : String → Option String} {subs autos : SubDict}
    {L : String}
    (h1 : ∀ L', get_subtitle_from_info f subs L' = none)
    (h2 : ∀ L', get_subtitle_from_info f autos L' = none) :
    resolve_subtitle_priority f subs autos L = none := by
  cases subs <;> cases autos <;> simp [resolve_subtitle_priority, h1, h2, optTruthy]

theorem pipeline_empty_of_all_fail {f : String → Option String} {subs autos : SubDict}
    {L : String}
    (h : ∀ p ∈ subs ++ autos, ∀ d ∈ p.2, descFails f d = true) :
    extract_subtitles f (.ok subs autos) L = "" := by
  have hdl : ∀ p ∈ subs ++ autos, download_subtitle_content f p.2 = none :=
    fun p hp => download_none_of_all_fail (h p hp)
  have h1 : ∀ L', get_subtitle_from_info f subs L' = none :=
    fun L' => get_none_of_downloads_none L' (fun p hp => hdl p (List.mem_append_left _ hp))
  have h2 : ∀ L', get_subtitle_from_info f autos L' = none :=
    fun L' => get_none_of_downloads_none L' (fun p hp => hdl p (List.mem_append_right _ hp))
  have hr : resolve_subtitle_priority f subs autos L = none :=
    resolve_none_of_get_none h1 h2
  simp [extract_subtitles, extract_subtitle_content, hr]

/-- C1 (corrected): track selection is deterministic and local — it is a
pure function of the catalog, the requested language, and the fetch
capability's behaviour on the locations listed in the catalog; two fetch
behaviours agreeing on every catalog location yield identical results.
(The original claim — independence from the fetch behaviour altogether —
is refuted by `select_fetch_dependence_cex`.) -/
theorem select_deterministic_given_fetch (f g : String → Option String)
    (subs autos : SubDict) (L : String)
    (h : ∀ u ∈ catUrls subs autos, f u = g u) :
    resolve_subtitle_priority f subs autos L = resolve_subtitle_priority g subs autos L :=
  resolve_congr h

theorem select_deterministic_given_fetch_wit :
    resolve_subtitle_priority fetchTag exManual [] "de" =
      resolve_subtitle_priority fetchTagAlt exManual [] "de" :=
  select_deterministic_given_fetch fetchTag fetchTagAlt exManual [] "de" (by decide)

/-- C1 counterexample: same catalog (`exManual`, `exAuto`), same
requested language `"en"`, but two behaviours of the injected fetch
capability select different tracks: when the manual track's retrieval
succeeds the manual content is returned, and when it raises the selection
moves to the automatic-caption track.  Selection is therefore not a pure
function of catalog and language alone. -/
theorem select_fetch_dependence_cex :
    resolve_subtitle_priority fetchBoth exManual exAuto "en" = some "MANUAL" ∧
    resolve_subtitle_priority fetchAutoOnly exManual exAuto "en" = some "AUTO" ∧
    resolve_subtitle_priority fetchBoth exManual exAuto "en" ≠
      resolve_subtitle_priority fetchAutoOnly exManual exAuto "en" := by
  decide

/-- C2 (corrected): when the manual mapping contains the exact requested
language and the download of that track succeeds with non-empty content,
the selector returns exactly that content — no automatic-caption tier is
consulted.  (The unconditional claim — for every behaviour of the fetch
step — is refuted by `manual_priority_cex`.) -/
theorem manual_success_takes_priority (f : String → Option String)
    (subs autos : SubDict) (L : String) (fmts : List FormatInfo) (c : String)
    (h1 : lookupA subs L = some fmts)
    (h2 : download_subtitle_content f fmts = some c)
    (h3 : ¬(c = "")) :
    resolve_subtitle_priority f subs autos L = some c := by
  have hg : get_subtitle_from_info f subs L = some c := by
    simp [get_subtitle_from_info, h1, h2]
  simp [resolve_subtitle_priority, hg, optTruthy, h3]

theorem manual_success_takes_priority_wit :
    resolve_subtitle_priority fetchBoth exManual exAuto "en" = some "MANUAL" :=
  manual_success_takes_priority fetchBoth exManual exAuto "en" [fiManual] "MANUAL"
    (by decide) (by decide) (by decide)

/-- C2 counterexample: the manual mapping contains the exact key `"en"`,
yet under a fetch behaviour where the manual track's retrieval raises,
the selector returns the automatic-caption content `"AUTO"` (obtainable
only from the automatic track's location `"a"`). -/
theorem manual_priority_cex :
    lookupA exManual "en" = some [fiManual] ∧
    fetchAutoOnly "m" = none ∧
    fetchAutoOnly "a" = some "AUTO" ∧
    resolve_subtitle_priority fetchAutoOnly exManual exAuto "en" = some "AUTO" := by
  decide

/-- C3 (corrected): under a fetch behaviour for which every descriptor
list in the catalog downloads to truthy (non-empty) content, selection
returns `None` exactly when both mappings are empty; and when neither an
exact nor a `L-*` variant key exists in a non-empty manual mapping, the
selection is the downloaded content of the manual mapping's
first-inserted language's descriptor list.  (Without the download
hypothesis the claim is refuted by `select_none_nonempty_cex`: a
non-empty manual mapping whose downloads all fail yields `None`, and the
per-mapping helper also returns `None` on a non-empty mapping.) -/
theorem select_none_characterization (f : String → Option String)
    (subs autos : SubDict) (L : String)
    (h : ∀ p ∈ subs ++ autos, optTruthy (download_subtitle_content f p.2) = true) :
    (resolve_subtitle_priority f subs autos L = none ↔ subs = [] ∧ autos = []) ∧
    (∀ k fmts rest, subs = (k, fmts) :: rest → lookupA subs L = none →
      findVariant subs L = none →
      resolve_subtitle_priority f subs autos L = download_subtitle_content f fmts) := by
  have hs : ∀ p ∈ subs, optTruthy (download_subtitle_content f p.2) = true :=
    fun p hp => h p (List.mem_append_left _ hp)
  have ha : ∀ p ∈ autos, optTruthy (download_subtitle_content f p.2) = true :=
    fun p hp => h p (List.mem_append_right _ hp)
  constructor
  · constructor
    · intro hnone
      cases hsubs : subs with
      | cons p ps =>
        exfalso
        have ht : optTruthy (get_subtitle_from_info f subs L) = true :=
          get_truthy L (by rw [hsubs]; exact List.cons_ne_nil _ _) hs
        have : resolve_subtitle_priority f subs autos L = get_subtitle_from_info f subs L := by
          simp [resolve_subtitle_priority, ht]
        rw [this] at hnone
        exact optTruthy_ne_none ht hnone
      | nil =>
        cases hautos : autos with
        | nil => exact ⟨rfl, rfl⟩
        | cons q qs =>
          exfalso
          subst hsubs
          have hg1 : get_subtitle_from_info f [] L = none := rfl
          have ht : optTruthy (get_subtitle_from_info f autos L) = true :=
            get_truthy L (by rw [hautos]; exact List.cons_ne_nil _ _) ha
          have : resolve_subtitle_priority f [] autos L =
              get_subtitle_from_info f autos L := by
            simp only [resolve_subtitle_priority, hg1, ht]
            simp [optTruthy]
          rw [this] at hnone
          exact optTruthy_ne_none ht hnone
    · rintro ⟨h1, h2⟩
      subst h1
      subst h2
      rfl
  · intro k fmts rest hsubs hlook hvar
    subst hsubs
    have hg : get_subtitle_from_info f ((k, fmts) :: rest) L =
        download_subtitle_content f fmts := by
      simp [get_subtitle_from_info, hlook, hvar]
    have ht : optTruthy (get_subtitle_from_info f ((k, fmts) :: rest) L) = true :=
      get_truthy L (List.cons_ne_nil _ _) hs
    simp only [resolve_subtitle_priority, ht, if_pos rfl]
    · exact hg

theorem select_none_characterization_wit :
    resolve_subtitle_priority fetchTag exManual [] "de" =
      download_subtitle_content fetchTag [fiManual] ∧
    ¬(resolve_subtitle_priority fetchTag exManual [] "de" = none) := by
  have H := select_none_characterization fetchTag exManual [] "de" (by decide)
  refine ⟨H.2 "en" [fiManual] [] rfl (by decide) (by decide), ?_⟩
  intro hn
  have h2 := (H.1.mp hn).1
  exact absurd h2 (by decide)

/-- C3 counterexample: a non-empty manual mapping under a fetch behaviour
whose retrievals all raise: selection returns `None` although the
mappings are not both empty, and the per-mapping helper also returns
`None` on this non-empty mapping. -/
theorem select_none_nonempty_cex :
    resolve_subtitle_priority fetchNever exManual [] "xx" = none ∧
    exManual ≠ ([] : SubDict) ∧
    get_subtitle_from_info fetchNever exManual "en" = none := by
  decide

/-- C5 (corrected): the fetcher iterates the descriptor list in order and
returns immediately with the payload of the first descriptor that has a
non-empty location and whose retrieval succeeds — even when that payload
is the empty string (the original "non-empty response" qualification is
refuted by `fetch_empty_payload_cex`); a descriptor whose location is
missing or empty, or whose retrieval raises, is skipped; if every
descriptor fails this way the fetcher returns `None`, and the full
pipeline then returns the empty string. -/
theorem download_first_success_spec :
    (∀ (f : String → Option String) (u c : String) (d : FormatInfo) (ds : List FormatInfo),
        d.url = some u → ¬(u = "") → f u = some c →
        download_subtitle_content f (d :: ds) = some c) ∧
    (∀ (f : String → Option String) (d : FormatInfo) (ds : List FormatInfo),
        descFails f d = true →
        download_subtitle_content f (d :: ds) = download_subtitle_content f ds) ∧
    (∀ (f : String → Option String) (ds : List FormatInfo),
        (∀ d ∈ ds, descFails f d = true) → download_subtitle_content f ds = none) ∧
    (∀ (f : String → Option String) (subs autos : SubDict) (L : String),
        (∀ p ∈ subs ++ autos, ∀ d ∈ p.2, descFails f d = true) →
        extract_subtitles f (.ok subs autos) L = "") := by
  refine ⟨?_, ?_, ?_, ?_⟩
  · intro f u c d ds h1 h2 h3
    simp [download_subtitle_content, h1, h2, h3]
  · intro f d ds h
    exact download_skip_fail h
  · intro f ds h
    exact download_none_of_all_fail h
  · intro f subs autos L h
    exact pipeline_empty_of_all_fail h

theorem download_first_success_spec_wit :
    download_subtitle_content fetchEmptyFirst (fiU1 :: [fiU2]) = some "" ∧
    download_subtitle_content fetchNever [fiU1, fiU2] = none ∧
    extract_subtitles fetchNever (.ok exManual exAuto) "en" = "" :=
  ⟨download_first_success_spec.1 fetchEmptyFirst "u1" "" fiU1 [fiU2] rfl (by decide) rfl,
   download_first_success_spec.2.2.1 fetchNever [fiU1, fiU2] (by decide),
   download_first_success_spec.2.2.2 fetchNever exManual exAuto "en" (by decide)⟩

/-- C5 counterexample: the first descriptor's retrieval succeeds with an
empty response; the fetcher still returns immediately with that empty
payload instead of moving on to the second descriptor, whose retrieval
would succeed with the non-empty `"X"`. -/
theorem fetch_empty_payload_cex :
    download_subtitle_content fetchEmptyFirst [fiU1, fiU2] = some "" ∧
    fetchEmptyFirst "u2" = some "X" ∧
    ¬(download_subtitle_content fetchEmptyFirst [fiU1, fiU2] = some "X") := by
  decide

/-- C6: a backend lookup failure (`ydl.extract_info` raising) is caught
at lines 175-180 and collapsed to the empty string by lines 46-57 —
exactly the same result as an empty catalog ("no subtitles found").  The
failure is NOT surfaced as a distinguishable error category, although the
docstring of `extract_subtitles` promises `ConnectionError` for network
issues; the claim describes the documented intent, the code contradicts
it. -/
theorem upstream_error_collapsed (f : String → Option String) (L : String) :
    extract_subtitles f .err L = "" ∧ extract_subtitles f (.ok [] []) L = "" :=
  ⟨rfl, rfl⟩

/-- C7 (corrected): on the VTT header scenario input the normalizer
returns `"Hi world"`: the header and the timing line are removed and the
tag is stripped, but the comma is not spacing-fixed — it is deleted
outright by the artifact-deletion step (line 335) before the
comma-spacing rules run. -/
theorem vtt_scenario_output :
    clean_subtitle_text vttScenario = Except.ok "Hi world" := by
  rfl

/-- C7 counterexample: the output on the VTT header scenario is not the
`"Hi, world"` the claim states. -/
theorem vtt_scenario_claim_false :
    ¬(clean_subtitle_text vttScenario = Except.ok "Hi, world") := by
  intro h
  have h2 : (Except.ok "Hi world" : Except PyErr String) = Except.ok "Hi, world" := by
    rw [← h]
    rfl
  injection h2 with h3
  exact absurd h3 (by decide)

/-- C8: on the JSON round-trip scenario input the normalizer detects the
JSON caption format, collects the `utf8` segment texts in order, and
returns exactly `"Hello world."`. -/
theorem json_scenario_output :
    clean_subtitle_text jsonScenario = Except.ok "Hello world." := by
  rfl

/-- C4 counterexample: `_clean_subtitle_text` is not total — on the
payload `{"events": 5}` (which parses, but whose `events` value is not
iterable) the `for event in data['events']` loop raises a `TypeError`
that the `except (json.JSONDecodeError, KeyError)` clause does not
catch. -/
theorem normalize_raises_typeerror_cex :
    clean_subtitle_text badShapeScenario = Except.error PyErr.typeError := by
  rfl

/-- C9 counterexample: `"42"` is in the image of the normalizer
(`normalize "4[2" = "42"`: the bracket is deleted as an artifact), it is
clean single-line text, yet normalizing it again yields `""` (the
sequence-number rule deletes pure digit lines), so
`normalize (normalize "4[2") ≠ normalize "4[2"`. -/
theorem normalize_not_idempotent_cex :
    clean_subtitle_text "4[2" = Except.ok "42" ∧
    clean_subtitle_text "42" = Except.ok "" ∧
    ¬(("" : String) = "42") :=
  ⟨rfl, rfl, by decide⟩

/-!  Character-preservation lemmas: every stage of the cleanup pipeline
only keeps input characters or introduces spaces. -/

theorem mem_scanAux {m : List Char → Option (Nat × List Char)}
    (hm : ∀ l n rep, m l = some (n, rep) → ∀ x ∈ rep, x ∈ l ∨ x = ' ') :
    ∀ (cs : List Char) (skip : Nat) (x : Char), x ∈ scanAux m cs skip → x ∈ cs ∨ x = ' ' := by
  intro cs
  induction cs with
  | nil => intro skip x hx; simp [scanAux] at hx
  | cons c rest ih =>
    intro skip x hx
    cases skip with
    | succ k =>
      have hx' : x ∈ scanAux m rest k := hx
      rcases ih k x hx' with h | h
      · exact Or.inl (List.mem_cons_of_mem _ h)
      · exact Or.inr h
    | zero =>
      cases hmc : m (c :: rest) with
      | none =>
        simp only [scanAux, hmc, List.mem_cons] at hx
        rcases hx with h | h
        · exact Or.inl (h ▸ List.mem_cons_self _ _)
        · rcases ih 0 x h with h2 | h2
          · exact Or.inl (List.mem_cons_of_mem _ h2)
          · exact Or.inr h2
      | some pr =>
        obtain ⟨n, rep⟩ := pr
        cases n with
        | zero =>
          simp only [scanAux, hmc, List.mem_cons] at hx
          rcases hx with h | h
          · exact Or.inl (h ▸ List.mem_cons_self _ _)
          · rcases ih 0 x h with h2 | h2
            · exact Or.inl (List.mem_cons_of_mem _ h2)
            · exact Or.inr h2
        | succ k =>
          simp only [scanAux, hmc, List.mem_append] at hx
          rcases hx with h | h
          · exact hm (c :: rest) (k + 1) rep hmc x h
          · rcases ih k x h with h2 | h2
            · exact Or.inl (List.mem_cons_of_mem _ h2)
            · exact Or.inr h2

theorem mem_scanAuxLS {m : Bool → List Char → Option (Nat × List Char)}
    (hm : ∀ fl l n rep, m fl l = some (n, rep) → rep = []) :
    ∀ (cs : List Char) (skip : Nat) (flag : Bool) (x : Char),
      x ∈ scanAuxLS m cs skip flag → x ∈ cs := by
  intro cs
  induction cs with
  | nil => intro skip flag x hx; simp [scanAuxLS] at hx
  | cons c rest ih =>
    intro skip flag x hx
    cases skip with
    | succ k => exact List.mem_cons_of_mem _ (ih k (c = '\n') x hx)
    | zero =>
      cases hmc : m flag (c :: rest) with
      | none =>
        simp only [scanAuxLS, hmc, List.mem_cons] at hx
        rcases hx with h | h
        · exact h ▸ List.mem_cons_self _ _
        · exact List.mem_cons_of_mem _ (ih 0 (c = '\n') x h)
      | some pr =>
        obtain ⟨n, rep⟩ := pr
        cases n with
        | zero =>
          simp only [scanAuxLS, hmc, List.mem_cons] at hx
          rcases hx with h | h
          · exact h ▸ List.mem_cons_self _ _
          · exact List.mem_cons_of_mem _ (ih 0 (c = '\n') x h)
        | succ k =>
          have hrep := hm flag (c :: rest) (k + 1) rep hmc
          subst hrep
          simp only [scanAuxLS, hmc, List.nil_append] at hx
          exact List.mem_cons_of_mem _ (ih k (c = '\n') x hx)

theorem webvttM_rep {fl : Bool} {l : List Char} {n : Nat} {rep : List Char}
    (h : webvttM fl l = some (n, rep)) : rep = [] := by
  simp only [webvttM] at h
  repeat' split at h
  all_goals simp_all

theorem seqNumM_rep {fl : Bool} {l : List Char} {n : Nat} {rep : List Char}
    (h : seqNumM fl l = some (n, rep)) : rep = [] := by
  simp only [seqNumM] at h
  repeat' split at h
  all_goals simp_all

theorem tsPairM_rep {ok : Bool} {l : List Char} {n : Nat} {rep : List Char}
    (h : tsPairM ok l = some (n, rep)) : rep = [] := by
  simp only [tsPairM] at h
  repeat' split at h
  all_goals simp_all

theorem delimM_rep {o c : Char} {l : List Char} {n : Nat} {rep : List Char}
    (h : delimM o c l = some (n, rep)) : rep = [] := by
  simp only [delimM] at h
  repeat' split at h
  all_goals simp_all

theorem keyNumPctM_rep {key l : List Char} {n : Nat} {rep : List Char}
    (h : keyNumPctM key l = some (n, rep)) : rep = [] := by
  simp only [keyNumPctM] at h
  repeat' split at h
  all_goals simp_all

theorem alignM_rep {l : List Char} {n : Nat} {rep : List Char}
    (h : alignM l = some (n, rep)) : rep = [] := by
  simp only [alignM] at h
  repeat' split at h
  all_goals simp_all

theorem tokenM_rep {l : List Char} {n : Nat} {rep : List Char}
    (h : tokenM l = some (n, rep)) : rep = [] := by
  simp only [tokenM] at h
  repeat' split at h
  all_goals simp_all

theorem runSubM_rep {p : Char → Bool} {l : List Char} {n : Nat} {rep : List Char}
    (h : runSubM p l = some (n, rep)) : rep = [' '] := by
  simp only [runSubM] at h
  repeat' split at h
  all_goals simp_all

theorem spBeforeM_rep {pu : Char → Bool} {l : List Char} {n : Nat} {rep : List Char}
    (h : spBeforeM pu l = some (n, rep)) : ∀ x ∈ rep, x ∈ l ∨ x = ' ' := by
  simp only [spBeforeM] at h
  split at h
  · exact absurd h (by simp)
  · split at h
    next p tail heq =>
      split at h
      · simp only [Option.some.injEq, Prod.mk.injEq] at h
        obtain ⟨-, h2⟩ := h
        subst h2
        intro x hx
        simp only [List.mem_singleton] at hx
        subst hx
        refine Or.inl (List.drop_subset (l.takeWhile isPySpace).length l ?_)
        rw [heq]
        exact List.mem_cons_self _ _
      · exact absurd h (by simp)
    next => exact absurd h (by simp)

theorem afterM_rep {pu : Char → Bool} {l : List Char} {n : Nat} {rep : List Char}
    (h : afterM pu l = some (n, rep)) : ∀ x ∈ rep, x ∈ l ∨ x = ' ' := by
  simp only [afterM] at h
  split at h
  next p x2 rest =>
    split at h
    · simp only [Option.some.injEq, Prod.mk.injEq] at h
      obtain ⟨-, h2⟩ := h
      subst h2
      intro x hx
      simp only [List.mem_cons, List.mem_singleton, List.not_mem_nil, or_false] at hx
      rcases hx with rfl | rfl | rfl
      · exact Or.inl (List.mem_cons_self _ _)
      · exact Or.inr rfl
      · exact Or.inl (List.mem_cons_of_mem _ (List.mem_cons_self _ _))
    · exact absurd h (by simp)
  next => exact absurd h (by simp)

theorem hm_run (p : Char → Bool) :
    ∀ l n rep, runSubM p l = some (n, rep) → ∀ x ∈ rep, x ∈ l ∨ x = ' ' := by
  intro l n rep h x hx
  rw [runSubM_rep h] at hx
  simp only [List.mem_singleton] at hx
  exact Or.inr hx

theorem hm_nil_of {M : List Char → Option (Nat × List Char)}
    (hrep : ∀ {l n rep}, M l = some (n, rep) → rep = []) :
    ∀ l n rep, M l = some (n, rep) → ∀ x ∈ rep, x ∈ l ∨ x = ' ' := by
  intro l n rep h x hx
  rw [hrep h] at hx
  simp at hx

theorem chars_splitNl : ∀ (cs l : List Char), l ∈ splitNl cs → ∀ x ∈ l, x ∈ cs := by
  intro cs
  induction cs with
  | nil =>
    intro l hl x hx
    simp [splitNl] at hl
    subst hl
    simp at hx
  | cons c rest ih =>
    intro l hl x hx
    by_cases hc : c = '\n'
    · simp only [splitNl, if_pos hc, List.mem_cons] at hl
      rcases hl with h | h
      · subst h; simp at hx
      · exact List.mem_cons_of_mem _ (ih l h x hx)
    · simp only [splitNl, if_neg hc] at hl
      cases hsr : splitNl rest with
      | nil =>
        rw [hsr] at hl
        simp only [List.mem_singleton] at hl
        subst hl
        simp only [List.mem_singleton] at hx
        exact hx ▸ List.mem_cons_self _ _
      | cons x0 xs =>
        rw [hsr] at hl
        simp only [List.mem_cons] at hl
        rcases hl with h | h
        · subst h
          simp only [List.mem_cons] at hx
          rcases hx with h2 | h2
          · exact h2 ▸ List.mem_cons_self _ _
          · exact List.mem_cons_of_mem _ (ih x0 (hsr ▸ List.mem_cons_self _ _) x h2)
        · exact List.mem_cons_of_mem _ (ih l (hsr ▸ List.mem_cons_of_mem _ h) x hx)

theorem chars_stripPy : ∀ (l : List Char) (x : Char), x ∈ stripPy l → x ∈ l := by
  intro l x hx
  unfold stripPy at hx
  rw [List.mem_reverse] at hx
  have h1 : x ∈ (l.dropWhile isPySpace).reverse :=
    (List.dropWhile_sublist isPySpace).subset hx
  rw [List.mem_reverse] at h1
  exact (List.dropWhile_sublist isPySpace).subset h1

theorem chars_joinSpace : ∀ (ls : List (List Char)) (x : Char),
    x ∈ joinSpace ls → (∃ l ∈ ls, x ∈ l) ∨ x = ' ' := by
  intro ls
  induction ls with
  | nil => intro x hx; simp [joinSpace] at hx
  | cons l ls' ih =>
    intro x hx
    cases ls' with
    | nil => exact Or.inl ⟨l, List.mem_cons_self _ _, hx⟩
    | cons l2 ls2 =>
      rw [show joinSpace (l :: l2 :: ls2) = l ++ ' ' :: joinSpace (l2 :: ls2) from rfl] at hx
      rw [List.mem_append] at hx
      rcases hx with h | h
      · exact Or.inl ⟨l, List.mem_cons_self _ _, h⟩
      · rw [List.mem_cons] at h
        rcases h with h | h
        · exact Or.inr h
        · rcases ih x h with ⟨l3, hl3, hxl3⟩ | h2
          · exact Or.inl ⟨l3, List.mem_cons_of_mem _ hl3, hxl3⟩
          · exact Or.inr h2

theorem chars_stage1 : ∀ (cs : List Char) (x : Char),
    x ∈ commonStage1 cs → x ∈ cs ∨ x = ' ' := by
  intro cs x hx
  unfold commonStage1 at hx
  rcases mem_scanAux (hm_run isPySpace) _ 0 x hx with h | h
  · rcases mem_scanAux (hm_run isCrLf) _ 0 x h with h2 | h2
    · rcases chars_joinSpace _ x h2 with ⟨l, hl, hxl⟩ | h3
      · have hl2 := (List.mem_filter.mp hl).1
        rcases List.mem_map.mp hl2 with ⟨l0, hl0, hmap⟩
        subst hmap
        exact Or.inl (chars_splitNl cs l0 hl0 x (chars_stripPy l0 x hxl))
      · exact Or.inr h3
    · exact Or.inr h2
  · exact Or.inr h

theorem chars_stage2 : ∀ (cs : List Char) (x : Char),
    x ∈ commonStage2 cs → x ∈ cs ∨ x = ' ' := by
  intro cs x hx
  unfold commonStage2 at hx
  rcases mem_scanAux (fun l n rep h => afterM_rep h) _ 0 x hx with h | h
  · rcases mem_scanAux (fun l n rep h => spBeforeM_rep h) _ 0 x h with h2 | h2
    · exact chars_stage1 cs x h2
    · exact Or.inr h2
  · exact Or.inr h

theorem chars_stage3 : ∀ (cs : List Char) (x : Char),
    x ∈ commonStage3 cs → x ∈ cs ∨ x = ' ' := by
  intro cs x hx
  unfold commonStage3 at hx
  rcases mem_scanAux (fun l n rep h => afterM_rep h) _ 0 x hx with h | h
  · rcases mem_scanAux (fun l n rep h => spBeforeM_rep h) _ 0 x h with h2 | h2
    · exact chars_stage2 cs x h2
    · exact Or.inr h2
  · exact Or.inr h

theorem chars_commonTail : ∀ (cs : List Char) (x : Char),
    x ∈ commonTail cs → x ∈ cs ∨ x = ' ' := by
  intro cs x hx
  unfold commonTail at hx
  have h1 := chars_stripPy _ x hx
  rcases mem_scanAux (hm_run isPySpace) _ 0 x h1 with h | h
  · exact chars_stage3 cs x h
  · exact Or.inr h

theorem scrubbed_no_seven : ∀ (cs : List Char) (x : Char),
    x ∈ markupScrubbed cs → sevenChar x = false := by
  intro cs x hx
  unfold markupScrubbed at hx
  rcases mem_scanAux (hm_nil_of (fun h => tokenM_rep h)) _ 0 x hx with h | h
  · have := (List.mem_filter.mp h).2
    simpa using this
  · subst h; decide

theorem markupCleanL_no_seven : ∀ (cs : List Char) (x : Char),
    x ∈ markupCleanL cs → sevenChar x = false := by
  intro cs x hx
  unfold markupCleanL at hx
  rcases chars_commonTail _ x hx with h | h
  · exact scrubbed_no_seven cs x h
  · subst h; decide

theorem scanSub_id_of_none {m : List Char → Option (Nat × List Char)} :
    ∀ cs : List Char, (∀ l, l <:+ cs → m l = none) → scanSub m cs = cs := by
  intro cs
  induction cs with
  | nil => intro h; rfl
  | cons c rest ih =>
    intro h
    have h0 : m (c :: rest) = none := h _ (List.suffix_refl _)
    have hrest : scanSub m rest = rest :=
      ih (fun l hl => h l (hl.trans (List.suffix_cons c rest)))
    show scanAux m (c :: rest) 0 = c :: rest
    have step : scanAux m (c :: rest) 0 = c :: scanAux m rest 0 := by
      simp only [scanAux, h0]
    rw [step]
    exact congrArg _ hrest

theorem spBeforeM_comma_none {l : List Char} (h : ¬(',' ∈ l)) :
    spBeforeM isCommaC l = none := by
  simp only [spBeforeM]
  by_cases he : (l.takeWhile isPySpace).isEmpty
  · simp [he]
  · cases hd : l.drop (l.takeWhile isPySpace).length with
    | nil => simp [he, hd]
    | cons p tail =>
      have hp : ¬(isCommaC p = true) := by
        intro hc
        simp only [isCommaC, decide_eq_true_eq] at hc
        subst hc
        exact h (List.drop_subset _ _ (hd ▸ List.mem_cons_self _ _))
      simp [he, hd, hp]

theorem afterM_comma_none {l : List Char} (h : ¬(',' ∈ l)) :
    afterM isCommaC l = none := by
  cases l with
  | nil => rfl
  | cons p rest =>
    cases rest with
    | nil => rfl
    | cons x2 rest2 =>
      have hp : ¬(isCommaC p = true) := by
        intro hc
        simp only [isCommaC, decide_eq_true_eq] at hc
        subst hc
        exact h (List.mem_cons_self _ _)
      simp [afterM, hp]

/-- C10: on every input, the markup branch's output contains none of the
characters `[ ] { } , " '` — the artifact-deletion step removes them all,
dialogue commas included — and consequently the two comma-spacing
substitutions in that branch match nothing: they leave their input
unchanged. -/
theorem markup_branch_no_artifacts (s : String) :
    (markupCleanL s.data).all (fun c => !(sevenChar c)) = true ∧
    commonStage3 (markupScrubbed s.data) = commonStage2 (markupScrubbed s.data) := by
  constructor
  · rw [List.all_eq_true]
    intro x hx
    have := markupCleanL_no_seven s.data x hx
    simp [this]
  · have hnc : ¬(',' ∈ commonStage2 (markupScrubbed s.data)) := by
      intro hmem
      rcases chars_stage2 _ ',' hmem with h | h
      · have := scrubbed_no_seven s.data ',' h
        simp [sevenChar] at this
      · exact absurd h (by decide)
    unfold commonStage3
    have h1 : scanSub (spBeforeM isCommaC) (commonStage2 (markupScrubbed s.data)) =
        commonStage2 (markupScrubbed s.data) :=
      scanSub_id_of_none _ (fun l hl =>
        spBeforeM_comma_none (fun hc => hnc (hl.subset hc)))
    rw [h1]
    exact scanSub_id_of_none _ (fun l hl =>
      afterM_comma_none (fun hc => hnc (hl.subset hc)))

/-!  Lemmas for the JSON-branch safety characterization. -/

theorem containsSub_two_singleton (a b : Char) (t : List Char) (x : Char) :
    containsSub (a :: b :: t) [x] = false := by
  simp [containsSub, startsWithL]

theorem lookupA_of_anyKey {kvs : List (String × PyVal)} {k : String}
    (h : kvs.any (fun p => p.1 = k) = true) : ∃ x, lookupA kvs k = some x := by
  induction kvs with
  | nil => simp at h
  | cons p rest ih =>
    obtain ⟨k', v'⟩ := p
    by_cases hk : k' = k
    · exact ⟨v', by simp [lookupA, hk]⟩
    · simp only [List.any_cons] at h
      rcases Bool.or_eq_true_iff.mp h with h2 | h2
      · exact absurd (by simpa using h2) hk
      · obtain ⟨x, hx⟩ := ih h2
        exact ⟨x, by simp [lookupA, hk, hx]⟩

theorem collectSegs_ok : ∀ (segs : List PyVal) (acc : List PyVal),
    segs.all segOk = true → allStrB acc = true →
    ∃ parts, collectSegs segs acc = Except.ok parts ∧ allStrB parts = true := by
  intro segs
  induction segs with
  | nil => intro acc _ h2; exact ⟨acc, rfl, h2⟩
  | cons seg rest ih =>
    intro acc h1 h2
    rw [List.all_cons, Bool.and_eq_true] at h1
    obtain ⟨hs, hr⟩ := h1
    cases seg with
    | num lit => simp [segOk] at hs
    | bool b => simp [segOk] at hs
    | null => simp [segOk] at hs
    | str s =>
      have hc : containsSub ("utf8".data) s.data = false := by simpa [segOk] using hs
      simp only [collectSegs, pyInV, hc]
      exact ih acc hr h2
    | arr xs =>
      have hc : xs.any (isStrVal "utf8") = false := by simpa [segOk] using hs
      simp only [collectSegs, pyInV, hc]
      exact ih acc hr h2
    | obj kvs =>
      cases hany : kvs.any (fun p => p.1 = "utf8") with
      | false =>
        simp only [collectSegs, pyInV, hany]
        exact ih acc hr h2
      | true =>
        obtain ⟨x, hx⟩ := lookupA_of_anyKey hany
        rw [show segOk (.obj kvs) =
            (match lookupA kvs "utf8" with
             | some (.str _) => true
             | some _ => false
             | none => true) from rfl, hx] at hs
        cases x with
        | str s' =>
          simp only [collectSegs, pyInV, hany, pyGetItem, hx]
          refine ih (acc ++ [.str s']) hr ?_
          simpa [allStrB, List.all_append, isStrV] using h2
        | num l2 => simp at hs
        | bool b2 => simp at hs
        | null => simp at hs
        | arr a2 => simp at hs
        | obj o2 => simp at hs

theorem collectEvents_ok : ∀ (events : List PyVal) (acc : List PyVal),
    events.all eventOk = true → allStrB acc = true →
    ∃ parts, collectEvents events acc = Except.ok parts ∧ allStrB parts = true := by
  intro events
  induction events with
  | nil => intro acc _ h2; exact ⟨acc, rfl, h2⟩
  | cons ev rest ih =>
    intro acc h1 h2
    rw [List.all_cons, Bool.and_eq_true] at h1
    obtain ⟨hs, hr⟩ := h1
    cases ev with
    | num lit => simp [eventOk] at hs
    | bool b => simp [eventOk] at hs
    | null => simp [eventOk] at hs
    | str s =>
      have hc : containsSub ("segs".data) s.data = false := by simpa [eventOk] using hs
      simp only [collectEvents, pyInV, hc]
      exact ih acc hr h2
    | arr xs =>
      have hc : xs.any (isStrVal "segs") = false := by simpa [eventOk] using hs
      simp only [collectEvents, pyInV, hc]
      exact ih acc hr h2
    | obj kvs =>
      cases hany : kvs.any (fun p => p.1 = "segs") with
      | false =>
        simp only [collectEvents, pyInV, hany]
        exact ih acc hr h2
      | true =>
        obtain ⟨sv, hx⟩ := lookupA_of_anyKey hany
        rw [show eventOk (.obj kvs) =
            (match lookupA kvs "segs" with
             | some sv => segsValOk sv
             | none => true) from rfl, hx] at hs
        simp only [collectEvents, pyInV, hany, pyGetItem, hx]
        cases sv with
        | num l2 => simp [segsValOk] at hs
        | bool b2 => simp [segsValOk] at hs
        | null => simp [segsValOk] at hs
        | str s2 =>
          simp only [pyIterV]
          have hall : (s2.data.map (fun c => PyVal.str (String.mk [c]))).all segOk = true := by
            rw [List.all_eq_true]
            intro v hv
            rcases List.mem_map.mp hv with ⟨c, -, rfl⟩
            simp [segOk, containsSub_two_singleton]
          obtain ⟨acc', ha1, ha2⟩ := collectSegs_ok _ acc hall h2
          simp only [ha1]
          exact ih acc' hr ha2
        | obj kvs2 =>
          simp only [pyIterV]
          have hkeys : ∀ a b, (a, b) ∈ kvs2 → containsSub ("utf8".data) a.data = false := by
            simpa [segsValOk] using hs
          have hall : (kvs2.map (fun p => PyVal.str p.1)).all segOk = true := by
            rw [List.all_eq_true]
            intro v hv
            rcases List.mem_map.mp hv with ⟨p, hp, rfl⟩
            simp [segOk, hkeys p.1 p.2 hp]
          obtain ⟨acc', ha1, ha2⟩ := collectSegs_ok _ acc hall h2
          simp only [ha1]
          exact ih acc' hr ha2
        | arr xs2 =>
          simp only [pyIterV]
          have hall : xs2.all segOk = true := by simpa [segsValOk] using hs
          obtain ⟨acc', ha1, ha2⟩ := collectSegs_ok _ acc hall h2
          simp only [ha1]
          exact ih acc' hr ha2

theorem partsToStrs_ok : ∀ (parts : List PyVal), allStrB parts = true →
    ∃ ss, partsToStrs parts = Except.ok ss := by
  intro parts
  induction parts with
  | nil => intro _; exact ⟨[], rfl⟩
  | cons v rest ih =>
    intro h
    rw [show allStrB (v :: rest) = (isStrV v && allStrB rest) from rfl,
      Bool.and_eq_true] at h
    obtain ⟨hv, hr⟩ := h
    cases v with
    | str s =>
      obtain ⟨ss, hss⟩ := ih hr
      exact ⟨s :: ss, by simp [partsToStrs, hss]⟩
    | num l2 => simp [isStrV] at hv
    | bool b2 => simp [isStrV] at hv
    | null => simp [isStrV] at hv
    | arr a2 => simp [isStrV] at hv
    | obj o2 => simp [isStrV] at hv

theorem wellShaped_branch_ok {v : PyVal} (h : wellShaped v = true) :
    ∃ o, jsonEventsBranch v = Except.ok o := by
  cases v with
  | num lit => simp [wellShaped] at h
  | bool b => simp [wellShaped] at h
  | null => simp [wellShaped] at h
  | str s =>
    have hc : containsSub ("events".data) s.data = false := by simpa [wellShaped] using h
    exact ⟨none, by simp [jsonEventsBranch, pyInV, hc]⟩
  | arr xs =>
    have hc : xs.any (isStrVal "events") = false := by simpa [wellShaped] using h
    exact ⟨none, by simp [jsonEventsBranch, pyInV, hc]⟩
  | obj kvs =>
    cases hany : kvs.any (fun p => p.1 = "events") with
    | false => exact ⟨none, by simp [jsonEventsBranch, pyInV, hany]⟩
    | true =>
      obtain ⟨ev, hx⟩ := lookupA_of_anyKey hany
      rw [show wellShaped (.obj kvs) =
          (match lookupA kvs "events" with
           | some ev => eventsValOk ev
           | none => true) from rfl, hx] at h
      simp only [jsonEventsBranch, pyInV, hany, pyGetItem, hx]
      cases ev with
      | num l2 => simp [eventsValOk] at h
      | bool b2 => simp [eventsValOk] at h
      | null => simp [eventsValOk] at h
      | str s2 =>
        simp only [pyIterV]
        have hall : (s2.data.map (fun c => PyVal.str (String.mk [c]))).all eventOk = true := by
          rw [List.all_eq_true]
          intro v hv
          rcases List.mem_map.mp hv with ⟨c, -, rfl⟩
          simp [eventOk, containsSub_two_singleton]
        obtain ⟨parts, hp1, hp2⟩ := collectEvents_ok _ [] hall rfl
        obtain ⟨ss, hss⟩ := partsToStrs_ok parts hp2
        exact ⟨some (jsonTailClean (String.intercalate " " ss)), by simp [hp1, hss]⟩
      | obj kvs2 =>
        simp only [pyIterV]
        have hkeys : ∀ a b, (a, b) ∈ kvs2 → containsSub ("segs".data) a.data = false := by
          simpa [eventsValOk] using h
        have hall : (kvs2.map (fun p => PyVal.str p.1)).all eventOk = true := by
          rw [List.all_eq_true]
          intro v hv
          rcases List.mem_map.mp hv with ⟨p, hp, rfl⟩
          simp [eventOk, hkeys p.1 p.2 hp]
        obtain ⟨parts, hp1, hp2⟩ := collectEvents_ok _ [] hall rfl
        obtain ⟨ss, hss⟩ := partsToStrs_ok parts hp2
        exact ⟨some (jsonTailClean (String.intercalate " " ss)), by simp [hp1, hss]⟩
      | arr xs2 =>
        simp only [pyIterV]
        have hall : xs2.all eventOk = true := by simpa [eventsValOk] using h
        obtain ⟨parts, hp1, hp2⟩ := collectEvents_ok _ [] hall rfl
        obtain ⟨ss, hss⟩ := partsToStrs_ok parts hp2
        exact ⟨some (jsonTailClean (String.intercalate " " ss)), by simp [hp1, hss]⟩

/-- C4 (corrected): `normalize("")` is `""`, and the normalizer returns a
string without raising on every payload that is shape-safe: the JSON
branch is not taken, or parsing fails (the `except` clause catches it and
the markup path runs), or the parsed document is well-shaped.  On an
ill-shaped parsed document (e.g. `{"events": 5}`) it raises a `TypeError`
— see `normalize_raises_typeerror_cex`. -/
theorem clean_total_when_shape_safe :
    clean_subtitle_text "" = Except.ok "" ∧
    ∀ s : String, safeShape s = true → ∃ t, clean_subtitle_text s = Except.ok t := by
  refine ⟨rfl, ?_⟩
  intro s h
  by_cases hs : s = ""
  · subst hs
    exact ⟨"", rfl⟩
  · cases hb : takesJsonBranch s with
    | false => exact ⟨markupClean s, by simp [clean_subtitle_text, hs, hb]⟩
    | true =>
      cases hj : pyJsonLoads s with
      | none => exact ⟨markupClean s, by simp [clean_subtitle_text, hs, hb, hj]⟩
      | some v =>
        have hw : wellShaped v = true := by
          simp only [safeShape, hb, hj, Bool.not_true, Bool.false_or] at h
          exact h
        obtain ⟨o, ho⟩ := wellShaped_branch_ok hw
        cases o with
        | some t => exact ⟨t, by simp [clean_subtitle_text, hs, hb, hj, ho]⟩
        | none => exact ⟨markupClean s, by simp [clean_subtitle_text, hs, hb, hj, ho]⟩

theorem clean_total_when_shape_safe_wit :
    ∃ t, clean_subtitle_text jsonScenario = Except.ok t :=
  clean_total_when_shape_safe.2 jsonScenario (by decide)

/-!  Foundations for the fixed-point theorem of the normalizer. -/

theorem startsWithL_subset : ∀ {n l : List Char}, startsWithL n l = true → ∀ x ∈ n, x ∈ l := by
  intro n
  induction n with
  | nil => intro l _ x hx; simp at hx
  | cons a as ih =>
    intro l h x hx
    cases l with
    | nil => simp [startsWithL] at h
    | cons b bs =>
      rw [show startsWithL (a :: as) (b :: bs) = (decide (a = b) && startsWithL as bs)
        from rfl, Bool.and_eq_true] at h
      obtain ⟨hab, hrest⟩ := h
      rw [List.mem_cons] at hx
      rcases hx with rfl | hx
      · exact (decide_eq_true_eq.mp hab) ▸ List.mem_cons_self _ _
      · exact List.mem_cons_of_mem _ (ih hrest x hx)

theorem containsSub_subset : ∀ {n h : List Char}, containsSub n h = true → ∀ x ∈ n, x ∈ h := by
  intro n h
  induction h with
  | nil =>
    intro hc x hx
    rw [show containsSub n ([] : List Char) = n.isEmpty from rfl] at hc
    rw [List.isEmpty_iff.mp hc] at hx
    simp at hx
  | cons c cs ih =>
    intro hc x hx
    rw [show containsSub n (c :: cs) = (startsWithL n (c :: cs) || containsSub n cs)
      from rfl, Bool.or_eq_true] at hc
    rcases hc with h1 | h1
    · exact startsWithL_subset h1 x hx
    · exact List.mem_cons_of_mem _ (ih h1 x hx)

theorem containsSub_of_suffix_startsWith :
    ∀ {h l n : List Char}, l <:+ h → startsWithL n l = true → containsSub n h = true := by
  intro h
  induction h with
  | nil =>
    intro l n hsfx hsw
    rw [List.suffix_nil.mp hsfx] at hsw
    cases n with
    | nil => rfl
    | cons a as => simp [startsWithL] at hsw
  | cons c cs ih =>
    intro l n hsfx hsw
    rw [show containsSub n (c :: cs) = (startsWithL n (c :: cs) || containsSub n cs)
      from rfl, Bool.or_eq_true]
    rcases List.suffix_cons_iff.mp hsfx with h1 | h1
    · subst h1
      exact Or.inl hsw
    · exact Or.inr (ih h1 hsw)

theorem startsWithL_append_self : ∀ (n b : List Char), startsWithL n (n ++ b) = true := by
  intro n b
  induction n with
  | nil => rfl
  | cons a as ih => simpa [startsWithL] using ih

theorem containsSub_of_parts : ∀ (a n b : List Char), containsSub n (a ++ (n ++ b)) = true := by
  intro a n b
  induction a with
  | nil =>
    rw [List.nil_append]
    cases n with
    | nil => cases b <;> rfl
    | cons a as =>
      rw [show containsSub (a :: as) ((a :: as) ++ b) =
        (startsWithL (a :: as) ((a :: as) ++ b) || containsSub (a :: as) (as ++ b)) from rfl,
        startsWithL_append_self]
      rfl
  | cons x xs ih =>
    rw [List.cons_append,
      show containsSub n (x :: (xs ++ (n ++ b))) =
        (startsWithL n (x :: (xs ++ (n ++ b))) || containsSub n (xs ++ (n ++ b))) from rfl,
      ih]
    simp

theorem containsSub_mono_suffix : ∀ {h l n : List Char}, l <:+ h →
    containsSub n l = true → containsSub n h = true := by
  intro h
  induction h with
  | nil =>
    intro l n hsfx hc
    rw [List.suffix_nil.mp hsfx] at hc
    exact hc
  | cons c cs ih =>
    intro l n hsfx hc
    rcases List.suffix_cons_iff.mp hsfx with h1 | h1
    · subst h1
      exact hc
    · rw [show containsSub n (c :: cs) = (startsWithL n (c :: cs) || containsSub n cs)
        from rfl, Bool.or_eq_true]
      exact Or.inr (ih h1 hc)

theorem dropLenTakeWhile : ∀ (p : Char → Bool) (l : List Char),
    l.drop (l.takeWhile p).length = l.dropWhile p := by
  intro p l
  induction l with
  | nil => rfl
  | cons c rest ih =>
    by_cases hc : p c
    · simp [List.takeWhile_cons, List.dropWhile_cons, hc, ih]
    · simp [List.takeWhile_cons, List.dropWhile_cons, hc]

theorem findNlNl_none : ∀ {l : List Char}, '\n' ∉ l → findNlNl l = none := by
  intro l
  induction l with
  | nil => intro _; rfl
  | cons c rest ih =>
    intro h
    have hc : ¬(c = '\n') := fun hcc => h (hcc ▸ List.mem_cons_self _ _)
    have hrest : '\n' ∉ rest := fun hm => h (List.mem_cons_of_mem _ hm)
    simp [findNlNl, hc, ih hrest]

theorem lastNlIdx_none : ∀ {l : List Char}, '\n' ∉ l → lastNlIdx l = none := by
  intro l
  induction l with
  | nil => intro _; rfl
  | cons c rest ih =>
    intro h
    have hc : ¬(c = '\n') := fun hcc => h (hcc ▸ List.mem_cons_self _ _)
    have hrest : '\n' ∉ rest := fun hm => h (List.mem_cons_of_mem _ hm)
    simp [lastNlIdx, ih hrest, hc]

theorem splitNl_no_nl : ∀ {cs : List Char}, '\n' ∉ cs → splitNl cs = [cs] := by
  intro cs
  induction cs with
  | nil => intro _; rfl
  | cons c rest ih =>
    intro h
    have hc : ¬(c = '\n') := fun hcc => h (hcc ▸ List.mem_cons_self _ _)
    have hrest : '\n' ∉ rest := fun hm => h (List.mem_cons_of_mem _ hm)
    simp [splitNl, hc, ih hrest]

theorem dropWhile_id_of_head {p : Char → Bool} :
    ∀ {l : List Char}, (∀ c, l.head? = some c → p c = false) → l.dropWhile p = l := by
  intro l h
  cases l with
  | nil => rfl
  | cons c rest =>
    have := h c rfl
    simp [List.dropWhile_cons, this]

theorem stripPy_id {l : List Char}
    (h1 : ∀ c, l.head? = some c → isPySpace c = false)
    (h2 : ∀ c, l.getLast? = some c → isPySpace c = false) :
    stripPy l = l := by
  unfold stripPy
  rw [dropWhile_id_of_head h1]
  rw [dropWhile_id_of_head (fun c hc => h2 c (by rwa [List.head?_reverse] at hc))]
  exact List.reverse_reverse l

theorem pairsOk_suffix : ∀ {cs l : List Char}, pairsOk cs = true → l <:+ cs →
    pairsOk l = true := by
  intro cs
  induction cs with
  | nil =>
    intro l _ hsfx
    rw [List.suffix_nil.mp hsfx]
    rfl
  | cons c rest ih =>
    intro l hp hsfx
    rcases List.suffix_cons_iff.mp hsfx with h1 | h1
    · subst h1
      exact hp
    · refine ih ?_ h1
      cases rest with
      | nil => rfl
      | cons d rest2 =>
        rw [show pairsOk (c :: d :: rest2) =
          ((!(isEndPunct c) || (d = ' ')) && pairsOk (d :: rest2)) from rfl,
          Bool.and_eq_true] at hp
        exact hp.2

theorem scanAuxLS_false_id {m : Bool → List Char → Option (Nat × List Char)} :
    ∀ cs : List Char, (∀ l, m false l = none) → '\n' ∉ cs →
      scanAuxLS m cs 0 false = cs := by
  intro cs
  induction cs with
  | nil => intro _ _; rfl
  | cons c rest ih =>
    intro hm hnl
    have hc : decide (c = '\n') = false :=
      decide_eq_false (fun h => hnl (h ▸ List.mem_cons_self _ _))
    simp only [scanAuxLS, hm (c :: rest), hc]
    exact congrArg _ (ih hm (fun h2 => hnl (List.mem_cons_of_mem _ h2)))

theorem scanSubLS_id {m : Bool → List Char → Option (Nat × List Char)} {cs : List Char}
    (hnl : '\n' ∉ cs) (ht : m true cs = none) (hf : ∀ l, m false l = none) :
    scanSubLS m cs = cs := by
  unfold scanSubLS
  cases cs with
  | nil => rfl
  | cons c rest =>
    have hc : decide (c = '\n') = false :=
      decide_eq_false (fun h => hnl (h ▸ List.mem_cons_self _ _))
    simp only [scanAuxLS, ht, hc]
    exact congrArg _
      (scanAuxLS_false_id rest hf (fun h2 => hnl (List.mem_cons_of_mem _ h2)))

theorem webvttM_false_none : ∀ l, webvttM false l = none := by
  intro l
  simp [webvttM]

theorem webvttM_true_none {cs : List Char} (hnl : '\n' ∉ cs) : webvttM true cs = none := by
  unfold webvttM
  by_cases hsw : startsWithL ("WEBVTT".data) cs
  · have hfind : findNlNl (cs.drop 6) = none :=
      findNlNl_none (fun hm => hnl (List.drop_subset _ _ hm))
    simp [hsw, hfind]
  · simp [hsw]

theorem colon_of_tsAfter {ok : Bool} {l r : List Char} (hts : tsAfter ok l = some r) :
    ':' ∈ l := by
  unfold tsAfter at hts
  split at hts
  next a b x c d y e f s g hh i rest =>
    split at hts
    next hg =>
      simp only [Bool.and_eq_true, decide_eq_true_eq] at hg
      have hx : x = ':' := by tauto
      subst hx
      simp
    next => exact absurd hts (by simp)
  next => exact absurd hts (by simp)

theorem tsPairM_none_colon {ok : Bool} {l : List Char} (h : ':' ∉ l) :
    tsPairM ok l = none := by
  cases h1 : tsAfter ok l with
  | none => simp [tsPairM, h1]
  | some r => exact absurd (colon_of_tsAfter h1) h

theorem seqNumM_false_none : ∀ l, seqNumM false l = none := by
  intro l
  simp [seqNumM]

theorem delimM_none_head {o c : Char} {l : List Char} (h : o ∉ l) : delimM o c l = none := by
  cases l with
  | nil => rfl
  | cons a rest =>
    have ha : ¬(a = o) := fun hao => h (hao ▸ List.mem_cons_self _ _)
    simp [delimM, ha]

theorem keyNumPctM_none_colon {key l : List Char} (hk : ':' ∈ key) (h : ':' ∉ l) :
    keyNumPctM key l = none := by
  by_cases hsw : startsWithL key l
  · exact absurd (startsWithL_subset hsw ':' hk) h
  · simp [keyNumPctM, hsw]

theorem alignM_none_colon {l : List Char} (h : ':' ∉ l) : alignM l = none := by
  by_cases hsw : startsWithL ("align:".data) l
  · exact absurd (startsWithL_subset hsw ':' (by decide)) h
  · simp [alignM, hsw]

theorem tokenM_none {cs l : List Char} (hsfx : l <:+ cs)
    (h1 : containsSub ("wsWinStyles".data) cs = false)
    (h2 : containsSub ("wpWinPositions".data) cs = false)
    (h3 : containsSub ("events".data) cs = false) : tokenM l = none := by
  by_cases hw1 : startsWithL ("wsWinStyles".data) l
  · rw [containsSub_of_suffix_startsWith hsfx hw1] at h1
    exact absurd h1 (by simp)
  · by_cases hw2 : startsWithL ("wpWinPositions".data) l
    · rw [containsSub_of_suffix_startsWith hsfx hw2] at h2
      exact absurd h2 (by simp)
    · by_cases hw3 : startsWithL ("events".data) l
      · rw [containsSub_of_suffix_startsWith hsfx hw3] at h3
        exact absurd h3 (by simp)
      · simp [tokenM, hw1, hw2, hw3]

theorem runSubM_none_head {p : Char → Bool} {l : List Char}
    (h : ∀ c, l.head? = some c → p c = false) : runSubM p l = none := by
  cases l with
  | nil => rfl
  | cons c rest =>
    have := h c rfl
    simp [runSubM, List.takeWhile_cons, this]

theorem containsSub_cons_false {n : List Char} {c : Char} {t : List Char}
    (h : containsSub n (c :: t) = false) : containsSub n t = false := by
  rw [show containsSub n (c :: t) = (startsWithL n (c :: t) || containsSub n t) from rfl,
    Bool.or_eq_false_iff] at h
  exact h.2

theorem wsRun_id : ∀ cs : List Char, (∀ c ∈ cs, isPySpace c = true → c = ' ') →
    containsSub [' ', ' '] cs = false → scanSub wsRunM cs = cs := by
  intro cs
  induction cs with
  | nil => intro _ _; rfl
  | cons c rest ih =>
    intro hws hdd
    have hws' : ∀ c' ∈ rest, isPySpace c' = true → c' = ' ' :=
      fun c' hc' => hws c' (List.mem_cons_of_mem _ hc')
    have hdd' : containsSub [' ', ' '] rest = false := containsSub_cons_false hdd
    by_cases hc : isPySpace c = true
    · have hce : c = ' ' := hws c (List.mem_cons_self _ _) hc
      subst hce
      have htw : rest.takeWhile isPySpace = [] := by
        cases rest with
        | nil => rfl
        | cons r0 rest2 =>
          by_cases hr0 : isPySpace r0 = true
          · exfalso
            have hr0e : r0 = ' ' :=
              hws r0 (List.mem_cons_of_mem _ (List.mem_cons_self _ _)) hr0
            subst hr0e
            rw [show containsSub [' ', ' '] (' ' :: ' ' :: rest2) =
              (startsWithL [' ', ' '] (' ' :: ' ' :: rest2) ||
                containsSub [' ', ' '] (' ' :: rest2)) from rfl] at hdd
            simp [startsWithL] at hdd
          · simp [List.takeWhile_cons, hr0]
      have hm : wsRunM (' ' :: rest) = some (1, [' ']) := by
        simp [wsRunM, runSubM, List.takeWhile_cons, hc, htw]
      show scanAux wsRunM (' ' :: rest) 0 = ' ' :: rest
      simp only [scanAux, hm]
      exact congrArg _ (ih hws' hdd')
    · have hm : wsRunM (c :: rest) = none :=
        runSubM_none_head (fun c' hc' => by
          simp only [List.head?_cons, Option.some.injEq] at hc'
          subst hc'
          simpa using hc)
      show scanAux wsRunM (c :: rest) 0 = c :: rest
      simp only [scanAux, hm]
      exact congrArg _ (ih hws' hdd')

theorem seqNumM_true_none {cs : List Char}
    (hws : ∀ c ∈ cs, isPySpace c = true → c = ' ')
    (hdig : (!cs.isEmpty && cs.all isDigitC) = false)
    (hlast : ¬(cs.getLast? = some ' ')) :
    seqNumM true cs = none := by
  by_cases hds : (cs.takeWhile isDigitC).isEmpty
  · simp [seqNumM, hds]
  · cases hrest : cs.dropWhile isDigitC with
    | nil =>
      exfalso
      have h0 := List.takeWhile_append_dropWhile isDigitC cs
      rw [hrest, List.append_nil] at h0
      have hne : cs ≠ [] := by
        intro h
        apply hds
        rw [h]
        rfl
      have halldig : cs.all isDigitC = true := by
        rw [List.all_eq_true]
        intro x hx
        rw [← h0] at hx
        exact List.mem_takeWhile_imp hx
      have htrue : (!cs.isEmpty && cs.all isDigitC) = true := by
        rw [halldig]
        simp [List.isEmpty_iff, hne]
      rw [htrue] at hdig
      exact absurd hdig (by simp)
    | cons r0 rest2 =>
      have hrne : cs.dropWhile isDigitC ≠ [] := by
        rw [hrest]
        exact List.cons_ne_nil _ _
      by_cases hafter : ((cs.dropWhile isDigitC).dropWhile isPySpace).isEmpty
      · exfalso
        have hallws : ∀ x ∈ cs.dropWhile isDigitC, isPySpace x :=
          List.dropWhile_eq_nil_iff.mp (List.isEmpty_iff.mp hafter)
        have hlastmem : (cs.dropWhile isDigitC).getLast hrne ∈ cs.dropWhile isDigitC :=
          List.getLast_mem hrne
        have hlastcs : (cs.dropWhile isDigitC).getLast hrne ∈ cs :=
          (List.dropWhile_sublist isDigitC).subset hlastmem
        have hsp : (cs.dropWhile isDigitC).getLast hrne = ' ' :=
          hws _ hlastcs (hallws _ hlastmem)
        have h2 := List.getLast?_append_of_ne_nil (cs.takeWhile isDigitC) hrne
        rw [List.takeWhile_append_dropWhile] at h2
        rw [List.getLast?_eq_getLast_of_ne_nil hrne, hsp] at h2
        exact hlast h2
      · have hnonl : '\n' ∉ (cs.dropWhile isDigitC).takeWhile isPySpace := by
          intro hm
          have hx : '\n' ∈ cs :=
            (List.dropWhile_sublist isDigitC).subset
              ((List.takeWhile_sublist isPySpace).subset hm)
          have := hws '\n' hx (by decide)
          exact absurd this (by decide)
        have hidx : lastNlIdx ((cs.dropWhile isDigitC).takeWhile isPySpace) = none :=
          lastNlIdx_none hnonl
        simp [seqNumM, hds, dropLenTakeWhile, hafter, hidx]

theorem spBeforeM_none_of {pu : Char → Bool} {l : List Char}
    (hws : ∀ c ∈ l, isPySpace c = true → c = ' ')
    (hp : ∀ p, pu p = true → containsSub [' ', p] l = false) :
    spBeforeM pu l = none := by
  by_cases he : (l.takeWhile isPySpace).isEmpty
  · simp [spBeforeM, he]
  · cases hd : l.drop (l.takeWhile isPySpace).length with
    | nil => simp [spBeforeM, he, hd]
    | cons p tail =>
      by_cases hpp : pu p = true
      · exfalso
        have hrne : l.takeWhile isPySpace ≠ [] := by
          intro h0
          apply he
          rw [h0]
          rfl
        have hlastmem : (l.takeWhile isPySpace).getLast hrne ∈ l.takeWhile isPySpace :=
          List.getLast_mem hrne
        have hlast_sp : (l.takeWhile isPySpace).getLast hrne = ' ' :=
          hws _ ((List.takeWhile_sublist isPySpace).subset hlastmem)
            (List.mem_takeWhile_imp hlastmem)
        have h1 : l.dropWhile isPySpace = p :: tail := by
          rw [← dropLenTakeWhile]
          exact hd
        have h2 : l.takeWhile isPySpace = (l.takeWhile isPySpace).dropLast ++ [' '] := by
          conv_lhs => rw [← List.dropLast_append_getLast hrne]
          rw [hlast_sp]
        have hdecomp : l = (l.takeWhile isPySpace).dropLast ++ ([' ', p] ++ tail) := by
          calc l = l.takeWhile isPySpace ++ (p :: tail) := by
                rw [← h1, List.takeWhile_append_dropWhile]
          _ = ((l.takeWhile isPySpace).dropLast ++ [' ']) ++ (p :: tail) := by rw [← h2]
          _ = (l.takeWhile isPySpace).dropLast ++ ([' ', p] ++ tail) := by simp
        have hc := containsSub_of_parts ((l.takeWhile isPySpace).dropLast) [' ', p] tail
        rw [← hdecomp] at hc
        rw [hp p hpp] at hc
        exact absurd hc (by simp)
      · simp [spBeforeM, he, hd, hpp]

theorem afterM_none_pairs {pu : Char → Bool} {l : List Char}
    (hpu : ∀ c, pu c = true → isEndPunct c = true)
    (hpairs : pairsOk l = true) : afterM pu l = none := by
  cases l with
  | nil => rfl
  | cons p rest =>
    cases rest with
    | nil => rfl
    | cons x rest2 =>
      by_cases hpc : pu p = true
      · have hep : isEndPunct p = true := hpu p hpc
        have hx : x = ' ' := by
          rw [show pairsOk (p :: x :: rest2) =
            ((!(isEndPunct p) || decide (x = ' ')) && pairsOk (x :: rest2)) from rfl,
            Bool.and_eq_true] at hpairs
          have h3 := hpairs.1
          rw [hep] at h3
          simpa using h3
        subst hx
        simp [afterM, hpc, isPySpace]
      · simp [afterM, hpc]

theorem containsSub_suffix_false {h l n : List Char} (hsfx : l <:+ h)
    (hc : containsSub n h = false) : containsSub n l = false := by
  cases hcl : containsSub n l with
  | false => rfl
  | true => exact absurd (containsSub_mono_suffix hsfx hcl) (by simp [hc])

theorem markupScrubbed_id {cs : List Char}
    (hws : ∀ c ∈ cs, isPySpace c = true → c = ' ')
    (hseven : ∀ c ∈ cs, sevenChar c = false)
    (hcolon : ':' ∉ cs) (hlt : '<' ∉ cs)
    (htok1 : containsSub ("events".data) cs = false)
    (htok2 : containsSub ("wsWinStyles".data) cs = false)
    (htok3 : containsSub ("wpWinPositions".data) cs = false)
    (hdig : (!cs.isEmpty && cs.all isDigitC) = false)
    (hlast : ¬(cs.getLast? = some ' ')) :
    markupScrubbed cs = cs := by
  have hnl : '\n' ∉ cs := fun hm => absurd (hws '\n' hm (by decide)) (by decide)
  have hlb : lbraceC ∉ cs := fun hm => absurd (hseven lbraceC hm) (by decide)
  unfold markupScrubbed
  rw [scanSubLS_id hnl (webvttM_true_none hnl) webvttM_false_none]
  rw [scanSub_id_of_none cs
    (fun l hl => tsPairM_none_colon (fun hc => hcolon (hl.subset hc)))]
  rw [scanSub_id_of_none cs
    (fun l hl => tsPairM_none_colon (fun hc => hcolon (hl.subset hc)))]
  rw [scanSubLS_id hnl (seqNumM_true_none hws hdig hlast) seqNumM_false_none]
  rw [@scanSub_id_of_none tagM cs
    (fun l hl => delimM_none_head (fun hc => hlt (hl.subset hc)))]
  rw [@scanSub_id_of_none braceM cs
    (fun l hl => delimM_none_head (fun hc => hlb (hl.subset hc)))]
  rw [@scanSub_id_of_none posM cs
    (fun l hl => keyNumPctM_none_colon (by decide) (fun hc => hcolon (hl.subset hc)))]
  rw [scanSub_id_of_none cs
    (fun l hl => alignM_none_colon (fun hc => hcolon (hl.subset hc)))]
  rw [@scanSub_id_of_none sizeM cs
    (fun l hl => keyNumPctM_none_colon (by decide) (fun hc => hcolon (hl.subset hc)))]
  rw [List.filter_eq_self.mpr (fun c hc => by simp [hseven c hc])]
  rw [scanSub_id_of_none cs (fun l hl => tokenM_none hl htok2 htok3 htok1)]

theorem commonTail_id {cs : List Char}
    (hne : cs ≠ [])
    (hws : ∀ c ∈ cs, isPySpace c = true → c = ' ')
    (hseven : ∀ c ∈ cs, sevenChar c = false)
    (hcolon : ':' ∉ cs)
    (hhead : ¬(cs.head? = some ' '))
    (hlast : ¬(cs.getLast? = some ' '))
    (hdd : containsSub [' ', ' '] cs = false)
    (hsp1 : containsSub [' ', '.'] cs = false)
    (hsp2 : containsSub [' ', '!'] cs = false)
    (hsp3 : containsSub [' ', '?'] cs = false)
    (hpairs : pairsOk cs = true) :
    commonTail cs = cs := by
  have hnl : '\n' ∉ cs := fun hm => absurd (hws '\n' hm (by decide)) (by decide)
  have hcr : '\r' ∉ cs := fun hm => absurd (hws '\r' hm (by decide)) (by decide)
  have hcomma : ',' ∉ cs := fun hm => absurd (hseven ',' hm) (by decide)
  have hheadns : ∀ c, cs.head? = some c → isPySpace c = false := by
    intro c hc
    have hcm : c ∈ cs := by
      cases cs with
      | nil => simp at hc
      | cons a rest =>
        simp only [List.head?_cons, Option.some.injEq] at hc
        rw [← hc]
        exact List.mem_cons_self _ _
    cases hps : isPySpace c with
    | false => rfl
    | true =>
      exfalso
      have hce := hws c hcm hps
      subst hce
      exact hhead hc
  have hlastns : ∀ c, cs.getLast? = some c → isPySpace c = false := by
    intro c hc
    rw [List.getLast?_eq_getLast_of_ne_nil hne, Option.some.injEq] at hc
    subst hc
    cases hps : isPySpace (cs.getLast hne) with
    | false => rfl
    | true =>
      exfalso
      have := hws _ (List.getLast_mem hne) hps
      exact hlast (by rw [List.getLast?_eq_getLast_of_ne_nil hne, this])
  have hkeep : keepLine cs = true := by
    cases hcs : cs with
    | nil => exact absurd hcs hne
    | cons c rest =>
      have h1 : isPySpace c = false := by
        refine hheadns c ?_
        rw [hcs]
        rfl
      have h2 : sevenChar c = false := hseven c (hcs ▸ List.mem_cons_self _ _)
      have h3 : ¬(c = ':') := fun h => hcolon (h ▸ hcs ▸ List.mem_cons_self _ _)
      simp [keepLine, List.all_cons, dropClassChar, h1, h2, h3]
  unfold commonTail commonStage3 commonStage2 commonStage1
  rw [splitNl_no_nl hnl, List.map_cons, List.map_nil, stripPy_id hheadns hlastns]
  rw [show List.filter keepLine [cs] = [cs] from by simp [hkeep]]
  rw [show joinSpace [cs] = cs from rfl]
  rw [@scanSub_id_of_none nlRunM cs (fun l hl =>
    (runSubM_none_head (fun c hc => by
      have hcm : c ∈ cs := by
        cases l with
        | nil => simp at hc
        | cons a rest =>
          simp only [List.head?_cons, Option.some.injEq] at hc
          subst hc
          exact hl.subset (List.mem_cons_self _ _)
      have hc1 : ¬(c = '\r') := fun h => hcr (h ▸ hcm)
      have hc2 : ¬(c = '\n') := fun h => hnl (h ▸ hcm)
      simp [isCrLf, hc1, hc2]) : nlRunM l = none))]
  rw [wsRun_id cs hws hdd]
  rw [scanSub_id_of_none cs (fun l hl =>
    spBeforeM_none_of (fun c hcm hps => hws c (hl.subset hcm) hps)
      (fun p hpp => by
        have hp3 : p = '.' ∨ p = '!' ∨ p = '?' := by
          simp only [isEndPunct, Bool.or_eq_true, decide_eq_true_eq] at hpp
          tauto
        rcases hp3 with rfl | rfl | rfl
        · exact containsSub_suffix_false hl hsp1
        · exact containsSub_suffix_false hl hsp2
        · exact containsSub_suffix_false hl hsp3))]
  rw [scanSub_id_of_none cs (fun l hl =>
    afterM_none_pairs (fun c hc => hc) (pairsOk_suffix hpairs hl))]
  rw [scanSub_id_of_none cs
    (fun l hl => spBeforeM_comma_none (fun hc => hcomma (hl.subset hc)))]
  rw [scanSub_id_of_none cs
    (fun l hl => afterM_comma_none (fun hc => hcomma (hl.subset hc)))]
  rw [wsRun_id cs hws hdd]
  rw [stripPy_id hheadns hlastns]

/-- C9 (corrected): every string that is clean in the strong sense of
`cleanFixed` — printable ASCII (the range on which the embedded `\s`/`\d`
classes coincide with Python's Unicode-aware ones, so the model is
faithful), single-line, single plain spaces only, none of the
artifact/structural characters, no literal token occurrences, not all
digits, normalized punctuation spacing — is a fixed point of the
normalizer, so normalization is idempotent on such strings.  The
original claim's stronger assertion, that everything in the image of the
normalizer is such a fixed point, is refuted by
`normalize_not_idempotent_cex`. -/
theorem clean_fixed_point (s : String) (h : cleanFixed s = true) :
    clean_subtitle_text s = Except.ok s := by
  by_cases hs0 : s = ""
  · subst hs0
    rfl
  · simp only [cleanFixed, Bool.and_eq_true] at h
    obtain ⟨⟨⟨⟨⟨⟨⟨⟨⟨⟨⟨⟨⟨-, h1⟩, h2⟩, h3⟩, h4⟩, h5⟩, h6⟩, h7⟩, h8⟩, h9⟩, h10⟩, h11⟩, h12⟩, h13⟩ := h
    have F3 : containsSub ("events".data) s.data = false := by simpa using h3
    have F4 : containsSub ("wsWinStyles".data) s.data = false := by simpa using h4
    have F5 : containsSub ("wpWinPositions".data) s.data = false := by simpa using h5
    have Fdig : (!s.data.isEmpty && s.data.all isDigitC) = false := by
      revert h6
      cases (!s.data.isEmpty && s.data.all isDigitC) <;> simp
    have Fhead : ¬(s.data.head? = some ' ') := by simpa using h7
    have Flast : ¬(s.data.getLast? = some ' ') := by simpa using h8
    have Fdd : containsSub [' ', ' '] s.data = false := by simpa using h9
    have Fsp1 : containsSub [' ', '.'] s.data = false := by simpa using h10
    have Fsp2 : containsSub [' ', '!'] s.data = false := by simpa using h11
    have Fsp3 : containsSub [' ', '?'] s.data = false := by simpa using h12
    have Fws : ∀ c ∈ s.data, isPySpace c = true → c = ' ' := by
      intro c hc hp
      have hcc := List.all_eq_true.mp h1 c hc
      rw [hp] at hcc
      simpa using hcc
    have h2' := List.all_eq_true.mp h2
    have Fseven : ∀ c ∈ s.data, sevenChar c = false := by
      intro c hc
      have hcc := h2' c hc
      by_contra hsc
      rw [Bool.not_eq_false] at hsc
      have hsp : c ≠ ' ' := by
        intro he
        rw [he] at hsc
        exact absurd hsc (by decide)
      have hdc : dropClassChar c = true := by simp [dropClassChar, hsc]
      rw [hdc] at hcc
      simp [hsp] at hcc
    have Fcolon : ':' ∉ s.data := by
      intro hm
      have hcc := h2' ':' hm
      simp [dropClassChar] at hcc
    have Flt : '<' ∉ s.data := by
      intro hm
      have hcc := h2' '<' hm
      simp at hcc
    have hne : s.data ≠ [] := by
      intro h0
      apply hs0
      cases s with
      | mk d =>
        simp only at h0
        rw [h0]
    have hheadns : ∀ c, s.data.head? = some c → isPySpace c = false := by
      intro c hc
      have hcm : c ∈ s.data := by
        cases hcs : s.data with
        | nil => rw [hcs] at hc; simp at hc
        | cons a rest =>
          rw [hcs] at hc
          simp only [List.head?_cons, Option.some.injEq] at hc
          rw [← hc]
          exact List.mem_cons_self _ _
      cases hps : isPySpace c with
      | false => rfl
      | true =>
        exfalso
        have hce := Fws c hcm hps
        subst hce
        exact Fhead hc
    have hlastns : ∀ c, s.data.getLast? = some c → isPySpace c = false := by
      intro c hc
      rw [List.getLast?_eq_getLast_of_ne_nil hne, Option.some.injEq] at hc
      subst hc
      cases hps : isPySpace (s.data.getLast hne) with
      | false => rfl
      | true =>
        exfalso
        have hce := Fws _ (List.getLast_mem hne) hps
        exact Flast (by rw [List.getLast?_eq_getLast_of_ne_nil hne, hce])
    have hstrip : stripPy s.data = s.data := stripPy_id hheadns hlastns
    have hev : containsSub ("\"events\"".data) s.data = false := by
      cases hcq : containsSub ("\"events\"".data) s.data with
      | false => rfl
      | true =>
        exfalso
        have hqm : quoteD ∈ s.data := containsSub_subset hcq quoteD (by decide)
        exact absurd (Fseven quoteD hqm) (by decide)
    have hbr : takesJsonBranch s = false := by
      unfold takesJsonBranch
      rw [hstrip]
      cases hcs : s.data with
      | nil => exact absurd hcs hne
      | cons c rest =>
        have hc7 : sevenChar c = false := Fseven c (hcs ▸ List.mem_cons_self _ _)
        have hlb : ¬(c = lbraceC) := by
          intro he
          rw [he] at hc7
          exact absurd hc7 (by decide)
        rw [hcs] at hev
        simp [hlb, hev]
    have hmarkup : markupClean s = s := by
      unfold markupClean markupCleanL
      rw [markupScrubbed_id Fws Fseven Fcolon Flt F3 F4 F5 Fdig Flast]
      rw [commonTail_id hne Fws Fseven Fcolon Fhead Flast Fdd Fsp1 Fsp2 Fsp3 h13]
    rw [show clean_subtitle_text s = Except.ok (markupClean s) from by
      simp [clean_subtitle_text, hs0, hbr], hmarkup]

theorem clean_fixed_point_wit :
    cleanFixed "Hello there. Goodbye!" = true ∧
    clean_subtitle_text "Hello there. Goodbye!" = Except.ok "Hello there. Goodbye!" :=
  ⟨by decide, clean_fixed_point "Hello there. Goodbye!" (by decide)⟩
